import Mathlib

/-!
Shallow embedding of the asc-web-converter extraction pipeline
(`src/utils/parse.ts`) and workbook assembler (`makeExcel.ts`).

Strings are modelled as `List Char`.  JavaScript numbers are modelled as
exact rationals (`ℚ`): every numeric value manipulated by the program is
obtained from decimal digit strings, and the claims under study concern
those decimal values, not binary-float rounding.  Consequently
`Number.isFinite` holds of every value produced by the model's coercion,
mirroring the fact that `toNumber` in the source returns `0` for any
non-finite result.
-/

namespace AscConv

/-! ### Character classes (JavaScript regex semantics) -/

/-- JS `\d` : the ASCII digits. -/
def isDigitC (c : Char) : Bool := '0' ≤ c && c ≤ '9'

/-- ASCII uppercase letter, JS `[A-Z]`. -/
def isUpperAZ (c : Char) : Bool := 'A' ≤ c && c ≤ 'Z'

/-- ASCII lowercase letter. -/
def isLowerAZ (c : Char) : Bool := 'a' ≤ c && c ≤ 'z'

/-- JS `\w` : `[A-Za-z0-9_]`. -/
def isWordJS (c : Char) : Bool := isDigitC c || isUpperAZ c || isLowerAZ c || c = '_'

/-- JS `\s` : `[\t\n\v\f\r \u00A0\u1680\u2000-\u200A\u2028\u2029\u202F\u205F\u3000\uFEFF]`. -/
def isWsJS (c : Char) : Bool :=
  c = ' ' || c = '\t' || c = '\n' || c = '\x0d' || c = '\x0b' || c = '\x0c' ||
  c = '\u00A0' || c = '\u1680' || ('\u2000' ≤ c && c ≤ '\u200A') ||
  c = '\u2028' || c = '\u2029' || c = '\u202F' || c = '\u205F' ||
  c = '\u3000' || c = '\uFEFF'

/-- JS line terminators, the characters the dot `.` does not match. -/
def isLineTerm (c : Char) : Bool :=
  c = '\n' || c = '\x0d' || c = '\u2028' || c = '\u2029'

/-- JS `.` (without the `s` flag): any character except a line terminator. -/
def isDotJS (c : Char) : Bool := !isLineTerm c

/-- `[\d,]` : digit or comma, the body class of the amount patterns. -/
def isDigitComma (c : Char) : Bool := isDigitC c || c = ','

/-! ### The Normalizer (`normalize` in parse.ts)

`s.replace(/\u00A0/g, " ").replace(/[ \t]+/g, " ").trim()` -/

/-- `replace(/\u00A0/g, " ")`. -/
def replaceNbsp (l : List Char) : List Char :=
  l.map (fun c => if c = '\u00A0' then ' ' else c)

/-- Space or tab, the class `[ \t]`. -/
def isSpTab (c : Char) : Bool := c = ' ' || c = '\t'

/-- `replace(/[ \t]+/g, " ")`: each maximal run of spaces/tabs becomes one
space.  `inRun` records whether the previous character belonged to a run. -/
def collapseGo : Bool → List Char → List Char
  | _, [] => []
  | inRun, c :: cs =>
    if isSpTab c then
      (if inRun then [] else [' ']) ++ collapseGo true cs
    else c :: collapseGo false cs

def collapseSpTab (l : List Char) : List Char := collapseGo false l

/-- `String.prototype.trim`: strips JS whitespace (and line terminators,
which are all in `isWsJS`) from both ends. -/
def trimJS (l : List Char) : List Char :=
  ((l.dropWhile isWsJS).reverse.dropWhile isWsJS).reverse

/-- `normalize` from parse.ts. -/
def normalize (l : List Char) : List Char :=
  trimJS (collapseSpTab (replaceNbsp l))

/-- `String.prototype.toUpperCase`, restricted to ASCII letters (the only
case-sensitive characters occurring in the keyword tests of the source). -/
def toUpperAscii (l : List Char) : List Char :=
  l.map (fun c => if isLowerAZ c then Char.ofNat (c.toNat - 32) else c)

/-! ### Numeric coercion (`toNumber` in parse.ts and makeExcel.ts)

`Number(String(v).replace(/[,$\s$]/g, "") || 0)`, then `isFinite(n) ? n : 0`.
`jsNumberOpt` models ECMAScript `Number(string)`; `none` stands for any
non-finite result (`NaN`, `±Infinity`), all of which `toNumber` maps to 0. -/

/-- Numeric value of a list of ASCII digits, most significant first. -/
def digitsVal (l : List Char) : ℕ :=
  l.foldl (fun a c => 10 * a + (c.toNat - 48)) 0

/-- Little-endian decimal digits of `n`; any `fuel ≥ n` yields them all. -/
def natReprAux : ℕ → ℕ → List Char
  | 0, _ => []
  | fuel + 1, n =>
    if n = 0 then []
    else Char.ofNat (48 + n % 10) :: natReprAux fuel (n / 10)

/-- JS `ToString` on a natural number: its decimal digits. -/
def natRepr (n : ℕ) : List Char :=
  if n = 0 then ['0'] else (natReprAux n n).reverse

def isHexDigitC (c : Char) : Bool :=
  isDigitC c || ('a' ≤ c && c ≤ 'f') || ('A' ≤ c && c ≤ 'F')

def hexDigitVal (c : Char) : ℕ :=
  if isDigitC c then c.toNat - 48
  else if 'a' ≤ c && c ≤ 'f' then c.toNat - 87
  else c.toNat - 55

def hexVal (l : List Char) : ℕ :=
  l.foldl (fun a c => 16 * a + hexDigitVal c) 0

def isOctDigitC (c : Char) : Bool := '0' ≤ c && c ≤ '7'

def octVal (l : List Char) : ℕ :=
  l.foldl (fun a c => 8 * a + (c.toNat - 48)) 0

def isBinDigitC (c : Char) : Bool := c = '0' || c = '1'

def binVal (l : List Char) : ℕ :=
  l.foldl (fun a c => 2 * a + (c.toNat - 48)) 0

/-- Optional exponent suffix `([eE][+-]?\d+)?`, applied to `base`;
the whole remainder must be consumed. -/
def parseExpSuffix (base : ℚ) (r : List Char) : Option ℚ :=
  match r with
  | [] => some base
  | e :: r2 =>
    if e = 'e' || e = 'E' then
      let (sgn, r3) : ℤ × List Char :=
        match r2 with
        | '+' :: r3 => (1, r3)
        | '-' :: r3 => (-1, r3)
        | _ => (1, r2)
      let ds := r3.takeWhile isDigitC
      let r4 := r3.dropWhile isDigitC
      if ds = [] || r4 ≠ [] then none
      else some (base * (10 : ℚ) ^ (sgn * (digitsVal ds : ℤ)))
    else none

/-- Unsigned ECMAScript decimal literal:
`digits ['.' digits?]? | '.' digits`, with optional exponent. -/
def parseUnsignedDec (l : List Char) : Option ℚ :=
  let ip := l.takeWhile isDigitC
  let r1 := l.dropWhile isDigitC
  match r1 with
  | '.' :: r2 =>
    let fp := r2.takeWhile isDigitC
    let r3 := r2.dropWhile isDigitC
    if ip = [] && fp = [] then none
    else parseExpSuffix ((digitsVal ip : ℚ) + (digitsVal fp : ℚ) / (10 : ℚ) ^ fp.length) r3
  | _ => if ip = [] then none else parseExpSuffix (digitsVal ip : ℚ) r1

/-- Unsigned literal or `Infinity` (non-finite, hence `none`). -/
def parseDecOrInf (l : List Char) : Option ℚ :=
  if l = "Infinity".data then none else parseUnsignedDec l

/-- Signed decimal part of `Number(string)`. -/
def parseSignedDec (l : List Char) : Option ℚ :=
  match l with
  | '+' :: r => parseDecOrInf r
  | '-' :: r => (parseDecOrInf r).map Neg.neg
  | _ => parseDecOrInf l

/-- ECMAScript `Number(string)`: `none` models a non-finite result. -/
def jsNumberOpt (s : List Char) : Option ℚ :=
  let t := trimJS s
  if t = [] then some 0
  else
    match t with
    | '0' :: c :: rest =>
      if (c = 'x' || c = 'X') && rest ≠ [] && rest.all isHexDigitC then
        some (hexVal rest : ℚ)
      else if (c = 'o' || c = 'O') && rest ≠ [] && rest.all isOctDigitC then
        some (octVal rest : ℚ)
      else if (c = 'b' || c = 'B') && rest ≠ [] && rest.all isBinDigitC then
        some (binVal rest : ℚ)
      else parseSignedDec t
    | _ => parseSignedDec t

/-- A JavaScript value reaching `toNumber`: a number, a string, or
`undefined` (e.g. an absent row field). -/
inductive JsVal where
  | num : ℚ → JsVal
  | str : List Char → JsVal
  | undef : JsVal
deriving DecidableEq

/-- `replace(/[,$\s$]/g, "")`: drop commas, dollar signs and whitespace. -/
def stripMoney (l : List Char) : List Char :=
  l.filter (fun c => !(c = ',' || c = '$' || isWsJS c))

/-- `toNumber` (identical in parse.ts and makeExcel.ts).  A number input is
returned unchanged (rationals are always finite); a string is stripped and
parsed, with `0` for empty (the `|| 0` guard), `NaN` or infinite results.
For `undefined`: parse.ts takes `Number("undefined") = NaN`, makeExcel takes
`Number(asString(undefined)) = Number("")` — both coerce to `0`. -/
def toNumber : JsVal → ℚ
  | .num q => q
  | .str s =>
    match jsNumberOpt (stripMoney s) with
    | some q => q
    | none => 0
  | .undef => 0

/-! ### The Totals Detector (`parseTotals` in parse.ts)

```
const L = line.toUpperCase();
if (!L.includes("TOTAL")) return null;
const mAmount = line.match(/[$]?\s*([\d,]+\.\d{2})\b/);
const amount = mAmount ? toNumber(mAmount[1]) : undefined;
const mCount = line.match(/\b(\d{1,4})\b(?!.*\b\d{1,4}\b)/);
const count = mCount ? Number(mCount[1]) : undefined;
if (amount == null && count == null) return null;
return { count, amount };
```
-/

/-- Is `pat` a prefix of `l`? -/
def isPrefixList : List Char → List Char → Bool
  | [], _ => true
  | _ :: _, [] => false
  | a :: as, b :: bs => a = b && isPrefixList as bs

/-- `String.prototype.includes`: is `pat` a contiguous substring of `l`? -/
def containsSub (pat : List Char) : List Char → Bool
  | [] => isPrefixList pat []
  | c :: cs => isPrefixList pat (c :: cs) || containsSub pat cs

/-- Match `[\d,]+\.\d{2}\b` anchored at the start of `l`, returning the
captured substring.  The greedy `[\d,]+` with backtracking is equivalent to
taking the maximal `[\d,]` run: a shorter take leaves a `[\d,]` character
where `\.` must match, which always fails. -/
def matchAmountAt (l : List Char) : Option (List Char) :=
  let run := l.takeWhile isDigitComma
  let rest := l.dropWhile isDigitComma
  if run = [] then none
  else
    match rest with
    | '.' :: d1 :: d2 :: r =>
      if isDigitC d1 && isDigitC d2 &&
          (match r with | [] => true | c :: _ => !isWordJS c) then
        some (run ++ '.' :: [d1, d2])
      else none
    | _ => none

/-- The capture of the first match of `/[$]?\s*([\d,]+\.\d{2})\b/` in `l`.
The optional `[$]?\s*` only widens where a match may start, never which
substring the group captures, so the capture is the leftmost match of the
group pattern itself. -/
def findAmount : List Char → Option (List Char)
  | [] => none
  | c :: cs =>
    match matchAmountAt (c :: cs) with
    | some g => some g
    | none => findAmount cs

/-- Does `\b\d{1,4}\b` match at the start of `l`, `prevWord` telling whether
the character before `l` is a word character?  The greedy `\d{1,4}` only
succeeds with the full digit run (a shorter take is followed by a digit,
violating the trailing `\b`), so the run must have length 1–4 and be
followed by a non-word character or the end. -/
def smallRunOk (prevWord : Bool) (l : List Char) : Bool :=
  let run := l.takeWhile isDigitC
  let rest := l.dropWhile isDigitC
  !prevWord && run ≠ [] && run.length ≤ 4 &&
    (match rest with | [] => true | c :: _ => !isWordJS c)

/-- Does `.*\b\d{1,4}\b` match somewhere in `l` (the lookahead body)?  The
`.*` cannot cross a line terminator, so candidates beyond one are unseen. -/
def laterCandidate : Bool → List Char → Bool
  | _, [] => false
  | prevW, c :: cs =>
    if isLineTerm c then false
    else if smallRunOk prevW (c :: cs) then true
    else laterCandidate (isWordJS c) cs

/-- The capture of the first match of `/\b(\d{1,4})\b(?!.*\b\d{1,4}\b)/`:
scan left to right; at the first bare 1–4-digit run whose lookahead finds
no later bare small run, return that run's value. -/
def countSearch : Bool → List Char → Option ℕ
  | _, [] => none
  | prevW, c :: cs =>
    if smallRunOk prevW (c :: cs) then
      if laterCandidate true ((c :: cs).dropWhile isDigitC) then
        countSearch (isWordJS c) cs
      else some (digitsVal ((c :: cs).takeWhile isDigitC))
    else countSearch (isWordJS c) cs

/-- All bare 1–4-digit integer occurrences of the line, left to right:
the maximal digit runs of length 1–4 delimited by non-word characters.
This follows the spec's description of the count rule and is compared with
the regex-derived `countSearch`. -/
def bareSmallInts : Bool → List Char → List (List Char)
  | _, [] => []
  | prevW, c :: cs =>
    if smallRunOk prevW (c :: cs) then
      (c :: cs).takeWhile isDigitC :: bareSmallInts (isWordJS c) cs
    else bareSmallInts (isWordJS c) cs

structure ParsedTotals where
  count : Option ℕ
  amount : Option ℚ
deriving DecidableEq

/-- `parseTotals` from parse.ts. -/
def parseTotals (line : List Char) : Option ParsedTotals :=
  let L := toUpperAscii line
  if !containsSub "TOTAL".data L then none
  else
    let amount := (findAmount line).map (fun g => toNumber (.str g))
    let count := countSearch false line
    if amount = none && count = none then none
    else some ⟨count, amount⟩

/-! ### The Row Parser (`parseRow` in parse.ts)

```
/^(\d{3,})\s+(\d{3}-\d{3}-\d{3})\s+([A-Z]{2})?\s*(\d{4,})\s+(.+?)\s+(\d{2}\/\d{2}\/\d{2})\s+([$]?[\d,]+\.\d{2})$/
```

The translation below follows the regex piece by piece.  Every greedy
quantifier except the `\s+` before the lazy name admits no useful
backtracking: shortening `(\d{3,})`, `(\d{4,})` or a digit run leaves a
digit where `\s+` must match; shortening a `\s+` before a digit-initial
token leaves whitespace where a digit must match; dropping `([A-Z]{2})?`
when two uppercase letters are present leaves a letter where `\s*(\d{4,})`
must match.  Only the `\s+` before `(.+?)` genuinely backtracks (the dot
matches non-terminator whitespace), which `tailLoop` implements. -/

structure ParsedRow where
  studentNo : List Char
  sin : List Char
  gov : Option (List Char)
  cert : List Char
  name : List Char
  eosDate : List Char
  amount : List Char
deriving DecidableEq

/-- `(\d{3}-\d{3}-\d{3})` anchored at the start, returning capture and rest. -/
def matchSin : List Char → Option (List Char × List Char)
  | a :: b :: c :: s1 :: d :: e :: f :: s2 :: g :: h :: i :: rest =>
    if s1 = '-' && s2 = '-' && ([a, b, c, d, e, f, g, h, i].all isDigitC) then
      some ([a, b, c, s1, d, e, f, s2, g, h, i], rest)
    else none
  | _ => none

/-- `(\d{2}\/\d{2}\/\d{2})` anchored at the start. -/
def matchDate : List Char → Option (List Char × List Char)
  | a :: b :: s1 :: c :: d :: s2 :: e :: f :: rest =>
    if s1 = '/' && s2 = '/' && ([a, b, c, d, e, f].all isDigitC) then
      some ([a, b, s1, c, d, s2, e, f], rest)
    else none
  | _ => none

/-- `([$]?[\d,]+\.\d{2})$`: must consume all of `l`.  Because `\.\d{2}$` is
a fixed-length tail, the greedy `[\d,]+` is forced to everything between
the optional dollar and the last three characters. -/
def matchAmountEnd (l : List Char) : Option (List Char) :=
  let body := if l.head? = some '$' then l.tail else l
  match body.reverse with
  | d2 :: d1 :: dot :: preRev =>
    if dot = '.' && isDigitC d1 && isDigitC d2 && preRev ≠ [] &&
        preRev.all isDigitComma then
      some l
    else none
  | _ => none

/-- `\s+(\d{2}\/\d{2}\/\d{2})\s+([$]?[\d,]+\.\d{2})$` against all of `l`.
Both `\s+` are equivalent to maximal munch: the following token starts
with a digit, dollar or comma, never whitespace. -/
def matchDateAmountEnd (l : List Char) : Option (List Char × List Char) :=
  let w := l.takeWhile isWsJS
  let r := l.dropWhile isWsJS
  if w = [] then none
  else
    match matchDate r with
    | none => none
    | some (d, r2) =>
      let w2 := r2.takeWhile isWsJS
      let r3 := r2.dropWhile isWsJS
      if w2 = [] then none
      else (matchAmountEnd r3).map (fun a => (d, a))

/-- The lazy `(.+?)\s+date\s+amount$` search: `accRev` is the reversed name
matched so far (nonempty).  First try to finish with the date/amount tail,
then extend the name by one dot-matchable character. -/
def nameSearch : List Char → List Char → Option (List Char × List Char × List Char)
  | accRev, [] => (matchDateAmountEnd []).map (fun p => (accRev.reverse, p.1, p.2))
  | accRev, c :: rs =>
    match matchDateAmountEnd (c :: rs) with
    | some (d, a) => some (accRev.reverse, d, a)
    | none => if isDotJS c then nameSearch (c :: accRev) rs else none

/-- Start the lazy name with its mandatory first character. -/
def startName (l : List Char) : Option (List Char × List Char × List Char) :=
  match l with
  | [] => none
  | c :: rs => if isDotJS c then nameSearch [c] rs else none

/-- The greedy `\s+` before the lazy name: first assign the whole
whitespace run to `\s+`, then on failure give its characters back to the
name one at a time, keeping at least one.  `wsRev` is the reversed
whitespace run still assigned to `\s+`. -/
def tailLoop : List Char → List Char → Option (List Char × List Char × List Char)
  | [], _ => none
  | [_], start => startName start
  | c :: wsRev, start =>
    match startName start with
    | some x => some x
    | none => tailLoop wsRev (c :: start)

/-- `([A-Z]{2})?` : two uppercase letters, or nothing. -/
def matchGov (l : List Char) : Option (List Char) × List Char :=
  match l with
  | a :: b :: rest =>
    if isUpperAZ a && isUpperAZ b then (some [a, b], rest) else (none, l)
  | _ => (none, l)

/-- The row regex applied to an already-normalized line. -/
def parseRowCore (l : List Char) : Option ParsedRow :=
  let d1 := l.takeWhile isDigitC
  let r1 := l.dropWhile isDigitC
  if d1.length < 3 then none
  else
    let w1 := r1.takeWhile isWsJS
    let r2 := r1.dropWhile isWsJS
    if w1 = [] then none
    else
      match matchSin r2 with
      | none => none
      | some (sin, r3) =>
        let w2 := r3.takeWhile isWsJS
        let r4 := r3.dropWhile isWsJS
        if w2 = [] then none
        else
          let govStep := matchGov r4
          let gov := govStep.1
          let r6 := govStep.2.dropWhile isWsJS
          let cert := r6.takeWhile isDigitC
          let r7 := r6.dropWhile isDigitC
          if cert.length < 4 then none
          else
            let w3 := r7.takeWhile isWsJS
            let r8 := r7.dropWhile isWsJS
            if w3 = [] then none
            else
              match tailLoop w3.reverse r8 with
              | none => none
              | some (name, date, amount) =>
                some { studentNo := d1, sin := sin, gov := gov, cert := cert,
                       name := name, eosDate := date, amount := amount }

/-- `parseRow` from parse.ts: normalize, then apply the anchored regex. -/
def parseRow (line : List Char) : Option ParsedRow :=
  parseRowCore (normalize line)

/-! ### Header detection, column splitting, page assembly -/

/-- `looksLikeHeader`: at least 3 of the fixed keywords occur in the
uppercased line. -/
def headerTokens : List (List Char) :=
  ["STUDENT".data, "SIN".data, "GOV".data, "CERT".data,
   "NAME".data, "EOS".data, "DATE".data, "AMOUNT".data]

def looksLikeHeader (line : List Char) : Bool :=
  let L := toUpperAscii line
  (headerTokens.foldl (fun n t => if containsSub t L then n + 1 else n) 0) ≥ 3

theorem dropWhile_length_le (p : Char → Bool) (l : List Char) :
    (l.dropWhile p).length ≤ l.length := by
  induction l with
  | nil => simp [List.dropWhile]
  | cons c cs ih =>
    by_cases h : p c
    · simpa [List.dropWhile, h] using Nat.le_succ_of_le ih
    · simp [List.dropWhile, h]

/-- `split(/ {2,}|\t+/)`: scanning left to right, a maximal run of at
least two spaces, or a maximal run of tabs, is a delimiter.  `cur` is the
reversed token being accumulated. -/
def splitGo (cur : List Char) : List Char → List (List Char)
  | [] => [cur.reverse]
  | ' ' :: ' ' :: rest =>
    cur.reverse :: splitGo [] (rest.dropWhile (fun c => c = ' '))
  | '\t' :: rest =>
    cur.reverse :: splitGo [] (rest.dropWhile (fun c => c = '\t'))
  | c :: rest => splitGo (c :: cur) rest
termination_by l => l.length
decreasing_by
  · exact Nat.lt_succ_of_le (Nat.lt_succ_of_le (dropWhile_length_le _ _)).le
  · exact Nat.lt_succ_of_le (dropWhile_length_le _ _)
  · simp

/-- The canonical 7-label fallback schema. -/
def defaultHeaders : List (List Char) :=
  ["STUDENT NO".data, "SIN".data, "GOV".data, "CERT #".data,
   "ABBREVIATED NAME".data, "EOS DATE".data, "AMOUNT".data]

/-- `splitColumns` from parse.ts: replace `|` by two spaces, split, trim,
drop empties; fall back to the canonical schema when fewer than 3 parts. -/
def splitColumns (header : List Char) : List (List Char) :=
  let replaced := (header.map (fun c => if c = '|' then [' ', ' '] else [c])).flatten
  let parts := ((splitGo [] replaced).map trimJS).filter (fun t => t ≠ [])
  if parts.length ≥ 3 then parts else defaultHeaders

structure ParsedPage where
  sheetName : List Char
  headerLines : List (List Char)
  columns : List (List Char)
  rows : List ParsedRow
  totals : Option ParsedTotals
deriving DecidableEq

/-- The scan loop of `parseFromLines`: totals first (stop on hit), then
rows. -/
def scanRows : List (List Char) → List ParsedRow × Option ParsedTotals
  | [] => ([], none)
  | ln :: rest =>
    match parseTotals ln with
    | some t => ([], some t)
    | none =>
      let s := scanRows rest
      match parseRow ln with
      | some r => (r :: s.1, s.2)
      | none => s

/-- `` `Page ${pageIndex}` ``. -/
def pageLabel (pageIndex : ℕ) : List Char :=
  "Page ".data ++ natRepr pageIndex

/-- The cleaned line list of `parseFromLines`:
`lines.map(normalize).filter(Boolean)`. -/
def cleanLines (lines : List (List Char)) : List (List Char) :=
  (lines.map normalize).filter (fun l => l ≠ [])

/-- The header index of `parseFromLines`:
`findIndex(looksLikeHeader)`, falling back to `min(4, length)`. -/
def headerIdxOf (clean : List (List Char)) : ℕ :=
  match clean.findIdx? looksLikeHeader with
  | some i => i
  | none => min 4 clean.length

/-- `parseFromLines` from parse.ts. -/
def parseFromLines (lines : List (List Char)) (pageIndex : ℕ) : ParsedPage :=
  let clean := cleanLines lines
  let headerIdx := headerIdxOf clean
  let headerLines := clean.take headerIdx
  let headerLine := clean.getD headerIdx []
  let columns := splitColumns headerLine
  let s := scanRows (clean.drop (headerIdx + 1))
  let sheetName :=
    match headerLines with
    | [] => pageLabel pageIndex
    | h :: _ => if h = [] then pageLabel pageIndex else h
  { sheetName := sheetName, headerLines := headerLines, columns := columns,
    rows := s.1, totals := s.2 }

/-- `split(/\r?\n/)`. -/
def splitLinesGo (cur : List Char) : List Char → List (List Char)
  | [] => [cur.reverse]
  | '\x0d' :: '\n' :: rest => cur.reverse :: splitLinesGo [] rest
  | '\n' :: rest => cur.reverse :: splitLinesGo [] rest
  | c :: rest => splitLinesGo (c :: cur) rest

/-- `parseDisbursementPageFromText` from parse.ts. -/
def parseDisbursementPageFromText (rawText : List Char) (pageIndex : ℕ) :
    ParsedPage :=
  parseFromLines (splitLinesGo [] rawText) pageIndex

/-! ### Workbook assembly (makeExcel.ts)

The assembler's input types are looser than the parser's output
(`ParsedRow`/`ParsedPage` in makeExcel.ts make every field optional, allow
`amount` to be a string or a number, and allow extra dynamically-keyed
fields).  `XRow`/`XPage` model those interfaces; the dynamic extension
fields are modelled as string-valued (`extra`), the only shape the rest of
this program ever produces. -/

/-- makeExcel's `ParsedRow`. -/
structure XRow where
  studentNo : Option (List Char)
  sin : Option (List Char)
  gov : Option (List Char)
  cert : Option (List Char)
  name : Option (List Char)
  eosDate : Option (List Char)
  amount : JsVal
  extra : List (List Char × List Char)
deriving DecidableEq

instance : Inhabited XRow :=
  ⟨{ studentNo := none, sin := none, gov := none, cert := none, name := none,
     eosDate := none, amount := .undef, extra := [] }⟩

/-- makeExcel's `ParsedPage.totals`: `{ count?: number; amount?: number | string }`. -/
structure XTotals where
  count : Option ℚ
  amount : JsVal
deriving DecidableEq

/-- makeExcel's `ParsedPage`. -/
structure XPage where
  sheetName : Option (List Char)
  headerLines : Option (List (List Char))
  columns : Option (List (List Char))
  rows : List XRow
  totals : Option XTotals
deriving DecidableEq

/-- `asString`: `v == null ? "" : typeof v === "string" ? v : String(v)`.
Numbers only reach `asString` through the dead `isFinite` fallback of the
currency branch (see `renderCell`), so their JS double printing is not
modelled beyond integers. -/
def asString : JsVal → List Char
  | .undef => []
  | .str s => s
  | .num q =>
    if q.den = 1 then
      (if q.num < 0 then '-' :: natRepr q.num.natAbs else natRepr q.num.natAbs)
    else '-' :: natRepr q.den

/-- Comma-group a reversed digit list: `k` counts digits emitted since the
last separator. -/
def groupGo : List Char → ℕ → List Char
  | [], _ => []
  | c :: cs, k =>
    if k = 3 then ',' :: c :: groupGo cs 1
    else c :: groupGo cs (k + 1)

/-- Thousands grouping of a digit string, commas every three from the right. -/
def groupThousands (ds : List Char) : List Char :=
  (groupGo ds.reverse 0).reverse

/-- `fmtMoney`: `toLocaleString(undefined, {minimumFractionDigits: 2,
maximumFractionDigits: 2})`, modelled for the en-US default locale: round
to two decimals (ECMA-402 default halfExpand — half away from zero),
thousands separators, exactly two fraction digits. -/
def fmtMoney (q : ℚ) : List Char :=
  let neg := q < 0
  let cents : ℕ := (⌊|q| * 100 + 1 / 2⌋).toNat
  let ip := cents / 100
  let fp := cents % 100
  (if neg then ['-'] else []) ++ groupThousands (natRepr ip) ++
    '.' :: [Char.ofNat (48 + fp / 10), Char.ofNat (48 + fp % 10)]

/-- `sumAmounts`. -/
def sumAmounts (rows : List XRow) : ℚ :=
  rows.foldl (fun acc r => acc + toNumber r.amount) 0

/-- Characters stripped by `safeSheetName`: the class `[\\/*?:\[\]:]`. -/
def isBadSheetChar (c : Char) : Bool :=
  c = '\\' || c = '/' || c = '*' || c = '?' || c = ':' || c = '[' || c = ']'

/-- `safeSheetName`. -/
def safeSheetName (raw : List Char) (indexZeroBased : ℕ) : List Char :=
  let s1 := trimJS (raw.filter (fun c => !isBadSheetChar c))
  let s2 := if s1 = [] then "Page ".data ++ natRepr (indexZeroBased + 1) else s1
  if s2.length > 31 then s2.take 31 else s2

/-- One collision candidate of `uniqueSheetName`:
`` `${base.slice(0, 31 - 4)} (${n})` ``. -/
def candName (base : List Char) (n : ℕ) : List Char :=
  base.take (31 - 4) ++ " (".data ++ natRepr n ++ [')']

/-- The `while (used.has(name))` loop.  Candidates for distinct `n` are
pairwise distinct, so at most `used.length` of them are in `used` and fuel
`used.length + 1` always suffices; the fuel-out default is unreachable
(see `uniqueLoop_not_mem`). -/
def uniqueLoop (base : List Char) (used : List (List Char)) :
    ℕ → ℕ → List Char
  | 0, n => candName base n
  | fuel + 1, n =>
    let nm := candName base n
    if nm ∈ used then uniqueLoop base used fuel (n + 1) else nm

/-- `uniqueSheetName` (the `used.add` is threaded by the caller). -/
def uniqueSheetName (base : List Char) (used : List (List Char)) : List Char :=
  if base ∈ used then uniqueLoop base used (used.length + 1) 2 else base

/-- `page.sheetName ?? page.headerLines?.[0] ?? `Page ${idx + 1}` `. -/
def intendedName (p : XPage) (idx : ℕ) : List Char :=
  match p.sheetName with
  | some s => s
  | none =>
    match p.headerLines with
    | some (h :: _) => h
    | _ => "Page ".data ++ natRepr (idx + 1)

/-- Header row selection: the page's `columns` when a non-empty array,
else the canonical defaults (`asString` on strings is the identity). -/
def sheetHeaders (p : XPage) : List (List Char) :=
  match p.columns with
  | some (c :: cs) => c :: cs
  | _ => defaultHeaders

/-- `headerKeyMap` lookup on the uppercased label, composed with the
dynamic `(r as any)[h]` fallback for non-canonical labels (which can also
reach the typed fields under their property names). -/
def getField (r : XRow) (h : List Char) : JsVal :=
  let optStr : Option (List Char) → JsVal :=
    fun v => match v with | some s => .str s | none => .undef
  let H := toUpperAscii h
  if H = "STUDENT NO".data then optStr r.studentNo
  else if H = "SIN".data then optStr r.sin
  else if H = "GOV".data then optStr r.gov
  else if H = "CERT #".data then optStr r.cert
  else if H = "ABBREVIATED NAME".data then optStr r.name
  else if H = "EOS DATE".data then optStr r.eosDate
  else if H = "AMOUNT".data then r.amount
  else if h = "studentNo".data then optStr r.studentNo
  else if h = "sin".data then optStr r.sin
  else if h = "gov".data then optStr r.gov
  else if h = "cert".data then optStr r.cert
  else if h = "name".data then optStr r.name
  else if h = "eosDate".data then optStr r.eosDate
  else if h = "amount".data then r.amount
  else optStr (r.extra.lookup h)

/-- A written cell value: a string or a number. -/
inductive CellVal where
  | s : List Char → CellVal
  | q : ℚ → CellVal
deriving DecidableEq

/-- `h.toUpperCase().includes("AMOUNT")`. -/
def isCurrencyHeader (h : List Char) : Bool :=
  containsSub "AMOUNT".data (toUpperAscii h)

/-- One data cell.  Source:
`cell.value = Number.isFinite(n) ? `$${fmtMoney(n)}` : asString(raw)` with
`n = toNumber(raw)`.  `toNumber` returns 0 for every non-finite parse, so
`Number.isFinite(n)` is identically true and the `asString(raw)` fallback
is dead; the model therefore renders the formatted number unconditionally
(the C3 counterexample exhibits the observable consequence). -/
def renderCell (h : List Char) (r : XRow) : CellVal :=
  let raw := getField r h
  if isCurrencyHeader h then .s ('$' :: fmtMoney (toNumber raw))
  else .s (asString raw)

/-- One output worksheet, keeping the observable content: name, labels,
preamble lines, rendered data cells and the three totals-row values.
Borders, merges, widths and fonts are presentation attributes with no
bearing on the claims. -/
structure Sheet where
  name : List Char
  headers : List (List Char)
  headerLines : List (List Char)
  dataRows : List (List CellVal)
  totalsLabel : List Char
  totalsCount : ℚ
  totalsAmount : List Char
deriving DecidableEq

/-- `page.totals?.count ?? rows.length`. -/
def totalCountOf (p : XPage) : ℚ :=
  match p.totals with
  | some t =>
    match t.count with
    | some c => c
    | none => (p.rows.length : ℚ)
  | none => (p.rows.length : ℚ)

/-- `page.totals?.amount != null ? toNumber(page.totals.amount) : sumAmounts(rows)`. -/
def totalAmountOf (p : XPage) : ℚ :=
  match p.totals with
  | some t =>
    match t.amount with
    | .undef => sumAmounts p.rows
    | v => toNumber v
  | none => sumAmounts p.rows

/-- Assembly of one worksheet from one page (makeExcel lines 214–307). -/
def mkSheet (p : XPage) (nm : List Char) : Sheet :=
  let headers := sheetHeaders p
  { name := nm
    headers := headers
    headerLines := match p.headerLines with | some ls => ls | none => []
    dataRows := p.rows.map (fun r => headers.map (fun h => renderCell h r))
    totalsLabel := "TOTAL FOR THIS DISBURSEMENT".data
    totalsCount := totalCountOf p
    totalsAmount := '$' :: fmtMoney (totalAmountOf p) }

/-- The `pages.forEach` of `createWorkbookFromPages`, threading the used
name set and the page index. -/
def wbGo (used : List (List Char)) (idx : ℕ) : List XPage → List Sheet
  | [] => []
  | p :: ps =>
    let nm := uniqueSheetName (safeSheetName (intendedName p idx) idx) used
    mkSheet p nm :: wbGo (nm :: used) (idx + 1) ps

/-- `createWorkbookFromPages`. -/
def createWorkbookFromPages (pages : List XPage) : List Sheet :=
  wbGo [] 0 pages

/-- The assigned sheet names alone (same recursion as `wbGo`). -/
def assignNamesGo (used : List (List Char)) (idx : ℕ) :
    List XPage → List (List Char)
  | [] => []
  | p :: ps =>
    let nm := uniqueSheetName (safeSheetName (intendedName p idx) idx) used
    nm :: assignNamesGo (nm :: used) (idx + 1) ps

def assignSheetNames (pages : List XPage) : List (List Char) :=
  assignNamesGo [] 0 pages

/-! ### Parser output viewed as assembler input -/

def ParsedRow.toX (r : ParsedRow) : XRow :=
  { studentNo := some r.studentNo, sin := some r.sin, gov := r.gov,
    cert := some r.cert, name := some r.name, eosDate := some r.eosDate,
    amount := .str r.amount, extra := [] }

def ParsedTotals.toX (t : ParsedTotals) : XTotals :=
  { count := t.count.map (fun n => (n : ℚ)),
    amount := match t.amount with | some q => .num q | none => .undef }

def ParsedPage.toX (p : ParsedPage) : XPage :=
  { sheetName := some p.sheetName, headerLines := some p.headerLines,
    columns := some p.columns, rows := p.rows.map ParsedRow.toX,
    totals := p.totals.map ParsedTotals.toX }

/-! ### Declarative row grammar (specification side)

`RowGrammar` is the existential decomposition the row regex describes.  A
regex without lookarounds matches a string exactly when such a
decomposition exists; backtracking order only selects which decomposition
the captures report. -/

/-- `\s+` : a nonempty all-whitespace segment. -/
def WsPlus (w : List Char) : Prop := w ≠ [] ∧ ∀ c ∈ w, isWsJS c = true

/-- `\s*` : a possibly empty all-whitespace segment. -/
def WsStar (w : List Char) : Prop := ∀ c ∈ w, isWsJS c = true

/-- `\d{3}-\d{3}-\d{3}`. -/
def SinShape (s : List Char) : Prop :=
  ∃ a b c d e f g h i,
    ([a, b, c, d, e, f, g, h, i].all isDigitC) = true ∧
    s = [a, b, c, '-', d, e, f, '-', g, h, i]

/-- `\d{2}\/\d{2}\/\d{2}`. -/
def DateShape (s : List Char) : Prop :=
  ∃ a b c d e f,
    ([a, b, c, d, e, f].all isDigitC) = true ∧
    s = [a, b, '/', c, d, '/', e, f]

/-- `[$]?[\d,]+\.\d{2}` — the amount class the regex accepts. -/
def AmountShape (s : List Char) : Prop :=
  ∃ (dol pre : List Char) (d1 d2 : Char),
    (dol = [] ∨ dol = ['$']) ∧ pre ≠ [] ∧ (∀ c ∈ pre, isDigitComma c = true) ∧
    isDigitC d1 = true ∧ isDigitC d2 = true ∧
    s = dol ++ pre ++ '.' :: [d1, d2]

/-- The spec's stricter amount field: optional `$`, properly comma-grouped
digit groups (first 1–3 digits, then groups of exactly 3), two decimals. -/
def AmountGrouped (s : List Char) : Prop :=
  ∃ (dol g0 : List Char) (gs : List (List Char)) (d1 d2 : Char),
    (dol = [] ∨ dol = ['$']) ∧
    1 ≤ g0.length ∧ g0.length ≤ 3 ∧ (∀ c ∈ g0, isDigitC c = true) ∧
    (∀ g ∈ gs, g.length = 3 ∧ ∀ c ∈ g, isDigitC c = true) ∧
    isDigitC d1 = true ∧ isDigitC d2 = true ∧
    s = dol ++ g0 ++ (gs.map (fun g => ',' :: g)).flatten ++ '.' :: [d1, d2]

/-- Declarative reading of the full row regex against a (normalized)
line. -/
def RowGrammar (l : List Char) (f : ParsedRow) : Prop :=
  ∃ (w1 w2 g w2b w3 w4 w5 : List Char),
    l = f.studentNo ++ w1 ++ f.sin ++ w2 ++ g ++ w2b ++ f.cert ++ w3 ++
        f.name ++ w4 ++ f.eosDate ++ w5 ++ f.amount ∧
    3 ≤ f.studentNo.length ∧ (∀ c ∈ f.studentNo, isDigitC c = true) ∧
    WsPlus w1 ∧ SinShape f.sin ∧ WsPlus w2 ∧
    (match f.gov with
     | some gg => g = gg ∧ ∃ a b, isUpperAZ a = true ∧ isUpperAZ b = true ∧ gg = [a, b]
     | none => g = []) ∧
    WsStar w2b ∧
    4 ≤ f.cert.length ∧ (∀ c ∈ f.cert, isDigitC c = true) ∧
    WsPlus w3 ∧ f.name ≠ [] ∧ (∀ c ∈ f.name, isDotJS c = true) ∧
    WsPlus w4 ∧ DateShape f.eosDate ∧ WsPlus w5 ∧ AmountShape f.amount

/-- No two adjacent spaces. -/
def noDoubleSp : List Char → Bool
  | [] => true
  | [_] => true
  | a :: b :: rest => !(a = ' ' && b = ' ') && noDoubleSp (b :: rest)

/-- A name field that survives normalization and is matchable by the dot:
nonempty, free of line terminators, tabs and non-breaking spaces, with no
double spaces and no leading or trailing whitespace. -/
def NameOk (n : List Char) : Prop :=
  n ≠ [] ∧ (∀ c ∈ n, isDotJS c = true ∧ c ≠ '\t' ∧ c ≠ '\u00A0') ∧
  noDoubleSp n = true ∧
  (∀ c, n.head? = some c → isWsJS c = false) ∧
  (∀ c, n.getLast? = some c → isWsJS c = false)

/-- Validity of the non-name fields per the claim's 7-field grammar. -/
def ValidFields (f : ParsedRow) : Prop :=
  3 ≤ f.studentNo.length ∧ (∀ c ∈ f.studentNo, isDigitC c = true) ∧
  SinShape f.sin ∧
  (∀ g, f.gov = some g → ∃ a b, isUpperAZ a = true ∧ isUpperAZ b = true ∧ g = [a, b]) ∧
  4 ≤ f.cert.length ∧ (∀ c ∈ f.cert, isDigitC c = true) ∧
  DateShape f.eosDate ∧ AmountGrouped f.amount

/-- The line synthesized from a field set by joining with single spaces. -/
def joinFields (f : ParsedRow) : List Char :=
  f.studentNo ++ ' ' :: f.sin ++ ' ' ::
    (match f.gov with | some g => g ++ [' '] | none => []) ++
    f.cert ++ ' ' :: f.name ++ ' ' :: f.eosDate ++ ' ' :: f.amount

/-- The `$#,##0.00` currency format: dollar sign, comma-grouped integer
digits, two decimals. -/
def MoneyFormat (s : List Char) : Prop :=
  ∃ (g0 : List Char) (gs : List (List Char)) (d1 d2 : Char),
    1 ≤ g0.length ∧ g0.length ≤ 3 ∧ (∀ c ∈ g0, isDigitC c = true) ∧
    (∀ g ∈ gs, g.length = 3 ∧ ∀ c ∈ g, isDigitC c = true) ∧
    isDigitC d1 = true ∧ isDigitC d2 = true ∧
    s = '$' :: g0 ++ (gs.map (fun g => ',' :: g)).flatten ++ '.' :: [d1, d2]

/-- The count capture described by the spec: the last bare 1–4-digit
integer of the line. -/
def specCount (l : List Char) : Option ℕ :=
  ((bareSmallInts false l).getLast?).map digitsVal

/-! ### Concrete example inputs used by the claim theorems -/

/-- The C5/C1 example row line. -/
def exRowLine : List Char :=
  "000123 123-456-789 ON 45678 DOE JOHN 08/09/23 $2,205.00".data

/-- The C1 example totals line. -/
def exTotalsLine : List Char := "TOTAL 12 $26,460.00".data

/-- The expected parse of `exRowLine`. -/
def exRow : ParsedRow :=
  { studentNo := "000123".data, sin := "123-456-789".data,
    gov := some "ON".data, cert := "45678".data, name := "DOE JOHN".data,
    eosDate := "08/09/23".data, amount := "$2,205.00".data }

/-- A bare assembler page with only a sheet name. -/
def namedPage (nm : List Char) : XPage :=
  { sheetName := some nm, headerLines := none, columns := none,
    rows := [], totals := none }

/-- Ten pages all wanting the same 31-character name (C2 counterexample). -/
def tenClashPages : List XPage :=
  List.replicate 10 (namedPage (List.replicate 31 'A'))

/-- A data row whose amount is the unparseable string "abc". -/
def rowBadAmount : XRow :=
  { studentNo := some "000123".data, sin := some "123-456-789".data,
    gov := some "ON".data, cert := some "45678".data,
    name := some "DOE JOHN".data, eosDate := some "08/09/23".data,
    amount := .str "abc".data, extra := [] }

/-- A page carrying `rowBadAmount` under the canonical headers
(C3 counterexample). -/
def pageBadAmount : XPage :=
  { sheetName := some "P".data, headerLines := none,
    columns := some defaultHeaders, rows := [rowBadAmount], totals := none }

/-- A data row with amount `100.00`. -/
def rowHundred : XRow :=
  { studentNo := some "000123".data, sin := some "123-456-789".data,
    gov := some "ON".data, cert := some "45678".data,
    name := some "DOE JOHN".data, eosDate := some "08/09/23".data,
    amount := .str "100.00".data, extra := [] }

/-- Three rows of 100.00 and no supplied totals (the C8 example page). -/
def pageThreeHundred : XPage :=
  { sheetName := some "P".data, headerLines := none, columns := none,
    rows := [rowHundred, rowHundred, rowHundred], totals := none }

/-- A page with supplied totals (C8 witness). -/
def pageSupplied : XPage :=
  { sheetName := some "P".data, headerLines := none, columns := none,
    rows := [rowHundred], totals := some { count := some 5, amount := .str "7.00".data } }

/-- The gov capture as a string: the captured letters, or empty. -/
def govStr : Option (List Char) → List Char
  | some gg => gg
  | none => []

/-- A valid field set whose name contains a double space (C4). -/
def exRowDoubleSp : ParsedRow :=
  { studentNo := "000123".data, sin := "123-456-789".data,
    gov := some "ON".data, cert := "45678".data, name := "A  B".data,
    eosDate := "08/09/23".data, amount := "$2,205.00".data }

/-! ## Helper lemmas -/

theorem takeWhile_append_sat {p : Char → Bool} {xs : List Char} {y : Char}
    (rest : List Char) (hxs : ∀ c ∈ xs, p c = true) (hy : p y = false) :
    (xs ++ y :: rest).takeWhile p = xs ∧ (xs ++ y :: rest).dropWhile p = y :: rest := by
  induction xs with
  | nil => simp [List.takeWhile_cons, List.dropWhile_cons, hy]
  | cons a as ih =>
    have ha : p a = true := hxs a (by simp)
    have h2 : ∀ c ∈ as, p c = true := fun c hc => hxs c (by simp [hc])
    have := ih h2
    simp [List.takeWhile_cons, List.dropWhile_cons, ha, this.1, this.2]

theorem splitColumns_len (h : List Char) : 3 ≤ (splitColumns h).length := by
  unfold splitColumns
  dsimp only
  split
  · assumption
  · simp [defaultHeaders]

theorem dropWhile_eq_self_all {p : Char → Bool} {l : List Char}
    (h : ∀ c ∈ l, p c = false) : l.dropWhile p = l := by
  cases l with
  | nil => rfl
  | cons a as => simp [List.dropWhile_cons, h a (by simp)]

theorem trimJS_eq_self {l : List Char} (h : ∀ c ∈ l, isWsJS c = false) :
    trimJS l = l := by
  unfold trimJS
  rw [dropWhile_eq_self_all h, dropWhile_eq_self_all
      (fun c hc => h c (by simpa using hc)), List.reverse_reverse]

theorem digit_not_ws {c : Char} (h : isDigitC c = true) : isWsJS c = false := by
  by_contra hws
  have hws2 : isWsJS c = true := by
    cases hb : isWsJS c
    · exact absurd hb hws
    · rfl
  simp only [isDigitC, Bool.and_eq_true, decide_eq_true_eq] at h
  simp only [isWsJS, Bool.or_eq_true, Bool.and_eq_true, decide_eq_true_eq] at hws2
  obtain ⟨h0, h9⟩ := h
  rcases hws2 with
    (((((((((((((h1|h1)|h1)|h1)|h1)|h1)|h1)|h1)|⟨h1,h2⟩)|h1)|h1)|h1)|h1)|h1)|h1 <;>
    first
      | (subst h1
         first
           | exact absurd h0 (by decide)
           | exact absurd h9 (by decide))
      | exact absurd (le_trans h1 h9) (by decide)

theorem foldl_add_sum (f : XRow → ℚ) (rows : List XRow) :
    ∀ a : ℚ, rows.foldl (fun acc r => acc + f r) a = a + (rows.map f).sum := by
  induction rows with
  | nil => intro a; simp
  | cons r rs ih => intro a; simp [ih, add_assoc]

/-- `sumAmounts` really is the sum of the coerced amounts. -/
theorem sumAmounts_eq_sum (rows : List XRow) :
    sumAmounts rows = (rows.map (fun r => toNumber r.amount)).sum := by
  unfold sumAmounts
  simpa using foldl_add_sum _ rows 0

theorem takeWhile_all {p : Char → Bool} {l : List Char}
    (h : ∀ c ∈ l, p c = true) : l.takeWhile p = l ∧ l.dropWhile p = [] := by
  induction l with
  | nil => simp
  | cons a as ih =>
    have := ih (fun c hc => h c (by simp [hc]))
    simp [List.takeWhile_cons, List.dropWhile_cons, h a (by simp), this.1, this.2]

/-- `Number` on a stripped decimal string `digits "." digits`. -/
theorem jsNumberOpt_decimal (ds fs : List Char)
    (hds : ∀ c ∈ ds, isDigitC c = true) (hfs : ∀ c ∈ fs, isDigitC c = true)
    (hne : ¬(ds = [] ∧ fs = [])) :
    jsNumberOpt (ds ++ '.' :: fs) =
      some ((digitsVal ds : ℚ) + (digitsVal fs : ℚ) / (10 : ℚ) ^ fs.length) := by
  classical
  have hws : ∀ c ∈ ds ++ '.' :: fs, isWsJS c = false := by
    intro c hc
    rcases List.mem_append.mp hc with h | h
    · exact digit_not_ws (hds c h)
    · rcases List.mem_cons.mp h with rfl | h
      · decide
      · exact digit_not_ws (hfs c h)
  have hlen : ¬(ds ++ '.' :: fs = []) := by simp
  have hhead : ∀ x r, ds ++ '.' :: fs = x :: r →
      x ≠ '+' ∧ x ≠ '-' ∧ x ≠ 'I' := by
    intro x r he
    cases ds with
    | nil =>
      rw [List.nil_append] at he
      injection he with h1 _
      subst h1
      exact ⟨by decide, by decide, by decide⟩
    | cons d ds2 =>
      rw [List.cons_append] at he
      injection he with h1 _
      have hd := hds d (by simp)
      subst h1
      refine ⟨?_, ?_, ?_⟩ <;> (intro he2; subst he2; exact absurd hd (by decide))
  have hinf : ds ++ '.' :: fs ≠ "Infinity".data := by
    intro he
    have hI : "Infinity".data = 'I' :: "nfinity".data := rfl
    rw [hI] at he
    exact absurd rfl (hhead _ _ he).2.2
  have hun : parseUnsignedDec (ds ++ '.' :: fs) =
      some ((digitsVal ds : ℚ) + (digitsVal fs : ℚ) / (10 : ℚ) ^ fs.length) := by
    unfold parseUnsignedDec
    have hsplit := takeWhile_append_sat (p := isDigitC) (y := '.') fs hds (by decide)
    rw [hsplit.1, hsplit.2]
    have hfs2 := takeWhile_all hfs
    simp only [hfs2.1, hfs2.2]
    rw [if_neg (by simpa using hne)]
    rfl
  have hps : parseSignedDec (ds ++ '.' :: fs) =
      some ((digitsVal ds : ℚ) + (digitsVal fs : ℚ) / (10 : ℚ) ^ fs.length) := by
    unfold parseSignedDec
    split
    · rename_i r heq
      exact absurd rfl (hhead _ _ heq).1
    · rename_i r heq
      exact absurd rfl (hhead _ _ heq).2.1
    · unfold parseDecOrInf
      rw [if_neg hinf]
      exact hun
  unfold jsNumberOpt
  rw [trimJS_eq_self hws, if_neg hlen]
  split
  · rename_i c rest heq
    have hc : isDigitC c = true ∨ c = '.' := by
      cases ds with
      | nil => simp at heq
      | cons d ds2 =>
        cases ds2 with
        | nil =>
          have h2 : d :: '.' :: fs = '0' :: c :: rest := by simpa using heq
          injection h2 with _ h3
          injection h3 with h3 _
          exact Or.inr h3.symm
        | cons d2 ds3 =>
          have h2 : d :: d2 :: (ds3 ++ '.' :: fs) = '0' :: c :: rest := by
            simpa using heq
          injection h2 with _ h3
          injection h3 with h3 _
          exact Or.inl (h3 ▸ hds d2 (by simp))
    have hcne : c ≠ 'x' ∧ c ≠ 'X' ∧ c ≠ 'o' ∧ c ≠ 'O' ∧ c ≠ 'b' ∧ c ≠ 'B' := by
      rcases hc with h | rfl
      · refine ⟨?_, ?_, ?_, ?_, ?_, ?_⟩ <;>
          (intro he; subst he; exact absurd h (by decide))
      · exact ⟨by decide, by decide, by decide, by decide, by decide, by decide⟩
    simp [hcne.1, hcne.2.1, hcne.2.2.1, hcne.2.2.2.1, hcne.2.2.2.2.1,
      hcne.2.2.2.2.2, hps]
  · exact hps

theorem floor_nat_add_half (m : ℕ) : ⌊(m : ℚ) + 1 / 2⌋ = m := by
  rw [Int.floor_eq_iff]
  constructor <;> push_cast <;> linarith

/-- `fmtMoney` on an exact-cent value. -/
theorem fmtMoney_cents (m : ℕ) :
    fmtMoney ((m : ℚ) / 100) =
      groupThousands (natRepr (m / 100)) ++
        '.' :: [Char.ofNat (48 + m % 100 / 10), Char.ofNat (48 + m % 100 % 10)] := by
  unfold fmtMoney
  have h0 : ¬((m : ℚ) / 100 < 0) := not_lt.mpr (by positivity)
  have habs : |(m : ℚ) / 100| = (m : ℚ) / 100 := abs_of_nonneg (by positivity)
  have hfl : (⌊|(m : ℚ) / 100| * 100 + 1 / 2⌋).toNat = m := by
    rw [habs]
    have hmul : ((m : ℚ) / 100) * 100 = (m : ℚ) := by field_simp
    rw [hmul, floor_nat_add_half]
    simp
  simp only [hfl, if_neg h0]
  simp

/-- The scan loop in closed form: rows are the row-parses of the lines
strictly before the first totals line; totals is the parse of that line. -/
theorem scanRows_eq (lns : List (List Char)) :
    scanRows lns =
      ((lns.takeWhile (fun l => (parseTotals l).isNone)).filterMap parseRow,
        ((lns.dropWhile (fun l => (parseTotals l).isNone)).head?.bind parseTotals)) := by
  induction lns with
  | nil => simp [scanRows]
  | cons ln rest ih =>
    cases h : parseTotals ln with
    | some t =>
      simp [scanRows, h, List.takeWhile_cons, List.dropWhile_cons]
    | none =>
      cases hr : parseRow ln <;>
        simp [scanRows, h, hr, ih, List.takeWhile_cons, List.dropWhile_cons]

/-! ## Claim theorems -/

/-- C7: for every input page the assembled rows are exactly the lines after
the header index, in input order, that parse as rows and strictly precede
the first line the Totals Detector recognizes; that first totals hit (if
any) becomes the page's totals, and no line at or after it contributes a
row. -/
theorem C7_rows_before_totals (lines : List (List Char)) (pageIndex : ℕ) :
    (parseFromLines lines pageIndex).rows =
      (((cleanLines lines).drop (headerIdxOf (cleanLines lines) + 1)).takeWhile
        (fun l => (parseTotals l).isNone)).filterMap parseRow ∧
    (parseFromLines lines pageIndex).totals =
      (((cleanLines lines).drop (headerIdxOf (cleanLines lines) + 1)).dropWhile
        (fun l => (parseTotals l).isNone)).head?.bind parseTotals := by
  constructor <;> simp [parseFromLines, scanRows_eq]

/-- C6: the header index is the index of the first line with at least 3
keyword hits; when no line qualifies it is `min 4 lineCount`; and all lines
strictly before it become `headerLines` verbatim. -/
theorem C6_header_detector (lines : List (List Char)) (pageIndex : ℕ) :
    (∀ j < headerIdxOf (cleanLines lines),
        looksLikeHeader ((cleanLines lines).getD j []) = false) ∧
    ((∃ j < (cleanLines lines).length,
        looksLikeHeader ((cleanLines lines).getD j []) = true) →
      headerIdxOf (cleanLines lines) < (cleanLines lines).length ∧
      looksLikeHeader ((cleanLines lines).getD (headerIdxOf (cleanLines lines)) []) = true) ∧
    ((∀ l ∈ cleanLines lines, looksLikeHeader l = false) →
      headerIdxOf (cleanLines lines) = min 4 (cleanLines lines).length) ∧
    (parseFromLines lines pageIndex).headerLines =
      (cleanLines lines).take (headerIdxOf (cleanLines lines)) := by
  classical
  refine ⟨?_, ?_, ?_, rfl⟩
  · intro j hj
    cases hf : (cleanLines lines).findIdx? looksLikeHeader with
    | some i =>
      have hidx : headerIdxOf (cleanLines lines) = i := by simp [headerIdxOf, hf]
      rw [List.findIdx?_eq_some_iff_getElem] at hf
      obtain ⟨hi, _, hall⟩ := hf
      rw [hidx] at hj
      rw [List.getD_eq_getElem (cleanLines lines) [] (by omega)]
      simpa using hall j hj
    | none =>
      have hidx : headerIdxOf (cleanLines lines) = min 4 (cleanLines lines).length := by
        simp [headerIdxOf, hf]
      rw [List.findIdx?_eq_none_iff] at hf
      rw [hidx] at hj
      have hjl : j < (cleanLines lines).length := by omega
      rw [List.getD_eq_getElem (cleanLines lines) [] hjl]
      exact hf _ (List.getElem_mem hjl)
  · rintro ⟨j, hj, hp⟩
    cases hf : (cleanLines lines).findIdx? looksLikeHeader with
    | some i =>
      have hidx : headerIdxOf (cleanLines lines) = i := by simp [headerIdxOf, hf]
      rw [List.findIdx?_eq_some_iff_getElem] at hf
      obtain ⟨hi, hpi, _⟩ := hf
      rw [hidx]
      exact ⟨hi, by rw [List.getD_eq_getElem (cleanLines lines) [] hi]; exact hpi⟩
    | none =>
      rw [List.findIdx?_eq_none_iff] at hf
      rw [List.getD_eq_getElem (cleanLines lines) [] hj] at hp
      have := hf _ (List.getElem_mem hj)
      simp [this] at hp
  · intro hall
    cases hf : (cleanLines lines).findIdx? looksLikeHeader with
    | some i =>
      rw [List.findIdx?_eq_some_iff_getElem] at hf
      obtain ⟨hi, hpi, _⟩ := hf
      have := hall _ (List.getElem_mem hi)
      simp [this] at hpi
    | none => simp [headerIdxOf, hf]

/-- C10: for every input text and page index the parsed page has a
non-empty sheet name and at least 3 column labels, so the workbook
assembler's default-headers branch is never taken for parser pages. -/
theorem C10_page_invariants (rawText : List Char) (pageIndex : ℕ) :
    (parseDisbursementPageFromText rawText pageIndex).sheetName ≠ [] ∧
    3 ≤ (parseDisbursementPageFromText rawText pageIndex).columns.length ∧
    sheetHeaders (ParsedPage.toX (parseDisbursementPageFromText rawText pageIndex)) =
      (parseDisbursementPageFromText rawText pageIndex).columns := by
  classical
  have hcols : 3 ≤ (parseDisbursementPageFromText rawText pageIndex).columns.length := by
    have hc : (parseDisbursementPageFromText rawText pageIndex).columns =
        splitColumns ((cleanLines (splitLinesGo [] rawText)).getD
          (headerIdxOf (cleanLines (splitLinesGo [] rawText))) []) := rfl
    rw [hc]
    exact splitColumns_len _
  refine ⟨?_, hcols, ?_⟩
  · have hs : (parseDisbursementPageFromText rawText pageIndex).sheetName =
        match (cleanLines (splitLinesGo [] rawText)).take
            (headerIdxOf (cleanLines (splitLinesGo [] rawText))) with
        | [] => pageLabel pageIndex
        | h :: _ => if h = [] then pageLabel pageIndex else h := rfl
    have hpl : pageLabel pageIndex ≠ [] := by simp [pageLabel]
    rw [hs]
    cases htl : (cleanLines (splitLinesGo [] rawText)).take
        (headerIdxOf (cleanLines (splitLinesGo [] rawText))) with
    | nil => exact hpl
    | cons h t =>
      have hmem : h ∈ cleanLines (splitLinesGo [] rawText) := by
        have : h ∈ (cleanLines (splitLinesGo [] rawText)).take
            (headerIdxOf (cleanLines (splitLinesGo [] rawText))) := by
          rw [htl]; simp
        exact List.take_subset _ _ this
      have hne : h ≠ [] := by
        unfold cleanLines at hmem
        have := (List.mem_filter.mp hmem).2
        simpa using this
      simp [hne, hpl]
  · unfold sheetHeaders ParsedPage.toX
    cases hc : (parseDisbursementPageFromText rawText pageIndex).columns with
    | nil => rw [hc] at hcols; simp at hcols
    | cons c cs => simp [hc]

/-- Witness for C6 on a concrete noisy page with a detectable header. -/
theorem C6_header_detector_witness :
    headerIdxOf (cleanLines ["REPORT".data, "STUDENT NO SIN AMOUNT".data]) <
      (cleanLines ["REPORT".data, "STUDENT NO SIN AMOUNT".data]).length ∧
    looksLikeHeader ((cleanLines ["REPORT".data, "STUDENT NO SIN AMOUNT".data]).getD
      (headerIdxOf (cleanLines ["REPORT".data, "STUDENT NO SIN AMOUNT".data])) []) = true :=
  (C6_header_detector ["REPORT".data, "STUDENT NO SIN AMOUNT".data] 0).2.1
    ⟨1, by decide, by decide⟩

/-- `toNumber` of the string `"100.00"`. -/
theorem toNumber_hundred : toNumber (.str "100.00".data) = 100 := by
  have h1 : stripMoney "100.00".data = "100".data ++ '.' :: "00".data := by decide
  have h2 := jsNumberOpt_decimal "100".data "00".data (by decide) (by decide) (by decide)
  have h3 : digitsVal "100".data = 100 := by decide
  have h4 : digitsVal "00".data = 0 := by decide
  rw [h3, h4] at h2
  simp only [toNumber, h1, h2]
  norm_num

/-- C8: the assembled totals row shows the page-supplied count when
present, else the number of data rows; and the page-supplied amount
(coerced) when present, else the sum of all row amounts, formatted as
currency; in particular a page with three rows of amount 100.00 and no
supplied totals shows count 3 and amount `$300.00`. -/
theorem C8_totals_row :
    (∀ (p : XPage) (nm : List Char) (t : XTotals) (c : ℚ),
        p.totals = some t → t.count = some c → (mkSheet p nm).totalsCount = c) ∧
    (∀ (p : XPage) (nm : List Char),
        (p.totals = none ∨ ∃ t, p.totals = some t ∧ t.count = none) →
        (mkSheet p nm).totalsCount = (p.rows.length : ℚ)) ∧
    (∀ (p : XPage) (nm : List Char) (t : XTotals),
        p.totals = some t → t.amount ≠ .undef →
        (mkSheet p nm).totalsAmount = '$' :: fmtMoney (toNumber t.amount)) ∧
    (∀ (p : XPage) (nm : List Char),
        (p.totals = none ∨ ∃ t, p.totals = some t ∧ t.amount = .undef) →
        (mkSheet p nm).totalsAmount =
          '$' :: fmtMoney ((p.rows.map (fun r => toNumber r.amount)).sum)) ∧
    ((mkSheet pageThreeHundred []).totalsCount = 3 ∧
      (mkSheet pageThreeHundred []).totalsAmount = "$300.00".data) := by
  have hCount : ∀ p : XPage, (mkSheet p []).totalsCount = totalCountOf p := fun _ => rfl
  refine ⟨?_, ?_, ?_, ?_, ?_, ?_⟩
  · intro p nm t c hp hc
    show totalCountOf p = c
    simp [totalCountOf, hp, hc]
  · intro p nm h
    show totalCountOf p = (p.rows.length : ℚ)
    rcases h with h | ⟨t, hp, hc⟩
    · simp [totalCountOf, h]
    · simp [totalCountOf, hp, hc]
  · intro p nm t hp ha
    show '$' :: fmtMoney (totalAmountOf p) = '$' :: fmtMoney (toNumber t.amount)
    cases hv : t.amount with
    | undef => exact absurd hv ha
    | num q => simp [totalAmountOf, hp, hv]
    | str s => simp [totalAmountOf, hp, hv]
  · intro p nm h
    show '$' :: fmtMoney (totalAmountOf p) =
      '$' :: fmtMoney ((p.rows.map (fun r => toNumber r.amount)).sum)
    rcases h with h | ⟨t, hp, hc⟩
    · simp [totalAmountOf, h, sumAmounts_eq_sum]
    · simp [totalAmountOf, hp, hc, sumAmounts_eq_sum]
  · show totalCountOf pageThreeHundred = 3
    simp [totalCountOf, pageThreeHundred]
  · show '$' :: fmtMoney (totalAmountOf pageThreeHundred) = "$300.00".data
    have hsum : totalAmountOf pageThreeHundred = 300 := by
      simp [totalAmountOf, pageThreeHundred, sumAmounts_eq_sum, rowHundred]
      have h100 : toNumber (JsVal.str ['1', '0', '0', '.', '0', '0']) = 100 :=
        toNumber_hundred
      rw [h100]
      norm_num
    rw [hsum]
    have h300 : (300 : ℚ) = ((30000 : ℕ) : ℚ) / 100 := by norm_num
    rw [h300, fmtMoney_cents]
    decide

/-- Witness for C8 at a concrete page with supplied totals. -/
theorem C8_totals_row_witness :
    pageSupplied.totals = some { count := some 5, amount := .str "7.00".data } ∧
    (mkSheet pageSupplied []).totalsCount = 5 ∧
    (mkSheet pageSupplied []).totalsAmount =
      '$' :: fmtMoney (toNumber (.str "7.00".data)) := by
  refine ⟨rfl, ?_, ?_⟩
  · exact C8_totals_row.1 pageSupplied [] _ 5 rfl rfl
  · exact C8_totals_row.2.2.1 pageSupplied []
      { count := some 5, amount := .str "7.00".data } rfl (by simp)

/-! ## Sheet-name uniqueness (C2) -/

theorem digitsVal_append_singleton (xs : List Char) (y : Char) :
    digitsVal (xs ++ [y]) = 10 * digitsVal xs + (y.toNat - 48) := by
  unfold digitsVal
  rw [List.foldl_append]
  rfl

theorem char_digit_facts {m : ℕ} (hm : m < 10) :
    (Char.ofNat (48 + m)).toNat = 48 + m ∧ isDigitC (Char.ofNat (48 + m)) = true := by
  interval_cases m <;> exact ⟨by decide, by decide⟩

theorem natReprAux_spec : ∀ (fuel n : ℕ), n ≤ fuel →
    (∀ c ∈ natReprAux fuel n, isDigitC c = true) ∧
    digitsVal (natReprAux fuel n).reverse = n ∧
    (n ≠ 0 → natReprAux fuel n ≠ []) := by
  intro fuel
  induction fuel with
  | zero =>
    intro n hn
    have : n = 0 := by omega
    subst this
    exact ⟨by simp [natReprAux, digitsVal], by simp [natReprAux, digitsVal], by simp⟩
  | succ fuel ih =>
    intro n hn
    by_cases h0 : n = 0
    · subst h0
      exact ⟨by simp [natReprAux, digitsVal], by simp [natReprAux, digitsVal], by simp⟩
    · have hmod := char_digit_facts (Nat.mod_lt n (by omega) : n % 10 < 10)
      have hdiv : n / 10 ≤ fuel := by
        have h1 : n / 10 < n := Nat.div_lt_self (by omega) (by omega)
        omega
      obtain ⟨ihd, ihv, _⟩ := ih (n / 10) hdiv
      have hunf : natReprAux (fuel + 1) n =
          Char.ofNat (48 + n % 10) :: natReprAux fuel (n / 10) := by
        simp [natReprAux, h0]
      refine ⟨?_, ?_, ?_⟩
      · intro c hc
        rw [hunf] at hc
        rcases List.mem_cons.mp hc with rfl | hc
        · exact hmod.2
        · exact ihd c hc
      · rw [hunf, List.reverse_cons, digitsVal_append_singleton, ihv, hmod.1]
        omega
      · intro _
        rw [hunf]
        simp

theorem natRepr_spec (n : ℕ) :
    (∀ c ∈ natRepr n, isDigitC c = true) ∧ natRepr n ≠ [] ∧
    digitsVal (natRepr n) = n := by
  unfold natRepr
  by_cases h0 : n = 0
  · subst h0
    exact ⟨by decide, by decide, by decide⟩
  · obtain ⟨hd, hv, hne⟩ := natReprAux_spec n n (le_refl n)
    rw [if_neg h0]
    exact ⟨fun c hc => hd c (List.mem_reverse.mp hc), by simpa using hne h0, hv⟩

theorem natRepr_inj {a b : ℕ} (h : natRepr a = natRepr b) : a = b := by
  rw [← (natRepr_spec a).2.2, ← (natRepr_spec b).2.2, h]

theorem natRepr_len_single {n : ℕ} (h : n ≤ 9) : (natRepr n).length = 1 := by
  interval_cases n <;> decide

theorem candName_inj (base : List Char) {n m : ℕ}
    (h : candName base n = candName base m) : n = m := by
  unfold candName at h
  rw [List.append_assoc, List.append_assoc, List.append_assoc, List.append_assoc] at h
  have h2 := List.append_cancel_left h
  have h3 := List.append_cancel_left h2
  have h4 : natRepr n = natRepr m := by
    have := congrArg List.dropLast h3
    simpa [List.dropLast_concat] using this
  exact natRepr_inj h4

theorem candName_len (base : List Char) (n : ℕ) :
    (candName base n).length = min 27 base.length + 3 + (natRepr n).length := by
  unfold candName
  simp [List.length_take, List.length_append]
  omega

theorem nodup_subset_length {l m : List (List Char)} (hn : l.Nodup)
    (hs : ∀ x ∈ l, x ∈ m) : l.length ≤ m.length := by
  classical
  have h1 : l.toFinset.card = l.length := List.toFinset_card_of_nodup hn
  have h2 : l.toFinset ⊆ m.toFinset := by
    intro x hx
    exact List.mem_toFinset.mpr (hs x (List.mem_toFinset.mp hx))
  calc l.length = l.toFinset.card := h1.symm
    _ ≤ m.toFinset.card := Finset.card_le_card h2
    _ ≤ m.length := List.toFinset_card_le m

theorem uniqueLoop_spec (base : List Char) (used : List (List Char)) :
    ∀ (fuel n : ℕ), ∃ m, n ≤ m ∧
      uniqueLoop base used fuel n = candName base m ∧
      (∀ j, n ≤ j → j < m → candName base j ∈ used) ∧
      (m < n + fuel → candName base m ∉ used) := by
  intro fuel
  induction fuel with
  | zero =>
    intro n
    exact ⟨n, le_refl n, rfl, fun j h1 h2 => absurd h2 (by omega),
      fun h => absurd h (by omega)⟩
  | succ fuel ih =>
    intro n
    by_cases h : candName base n ∈ used
    · obtain ⟨m, hm1, hm2, hm3, hm4⟩ := ih (n + 1)
      refine ⟨m, by omega, by simpa [uniqueLoop, h] using hm2, ?_, ?_⟩
      · intro j h1 h2
        rcases eq_or_lt_of_le h1 with rfl | h1'
        · exact h
        · exact hm3 j (by omega) h2
      · intro hlt
        exact hm4 (by omega)
    · exact ⟨n, le_refl n, by simp [uniqueLoop, h],
        fun j h1 h2 => absurd h2 (by omega), fun _ => h⟩

theorem uniqueSheetName_spec (base : List Char) (used : List (List Char)) :
    uniqueSheetName base used ∉ used ∧
    (uniqueSheetName base used = base ∨
      ∃ m, 2 ≤ m ∧ m ≤ used.length + 2 ∧
        uniqueSheetName base used = candName base m) := by
  unfold uniqueSheetName
  by_cases h : base ∈ used
  · obtain ⟨m, hm1, hm2, hm3, hm4⟩ := uniqueLoop_spec base used (used.length + 1) 2
    have hbound : m ≤ used.length + 2 := by
      by_contra hc
      push_neg at hc
      have hsub : ∀ x ∈ (List.range (m - 2)).map (fun j => candName base (2 + j)),
          x ∈ used := by
        intro x hx
        obtain ⟨j, hj, rfl⟩ := List.mem_map.mp hx
        exact hm3 (2 + j) (by omega) (by have := List.mem_range.mp hj; omega)
      have hnd : ((List.range (m - 2)).map (fun j => candName base (2 + j))).Nodup := by
        refine List.Nodup.map ?_ (List.nodup_range _)
        intro a b hab
        have := candName_inj base hab
        omega
      have := nodup_subset_length hnd hsub
      simp at this
      omega
    rw [if_pos h]
    exact ⟨hm2 ▸ hm4 (by omega), Or.inr ⟨m, hm1, hbound, hm2⟩⟩
  · rw [if_neg h]
    exact ⟨h, Or.inl rfl⟩

theorem safeSheetName_len (raw : List Char) (idx : ℕ) :
    (safeSheetName raw idx).length ≤ 31 := by
  have key : ∀ s2 : List Char, (if s2.length > 31 then s2.take 31 else s2).length ≤ 31 := by
    intro s2
    split
    · rw [List.length_take]
      omega
    · omega
  exact key _

theorem assignNamesGo_spec : ∀ (ps : List XPage) (used : List (List Char)) (idx : ℕ),
    (∀ nm ∈ assignNamesGo used idx ps, nm ∉ used) ∧
    (assignNamesGo used idx ps).Nodup := by
  intro ps
  induction ps with
  | nil => intro used idx; simp [assignNamesGo]
  | cons p ps ih =>
    intro used idx
    obtain ⟨hnm, hnd⟩ := ih
      (uniqueSheetName (safeSheetName (intendedName p idx) idx) used :: used) (idx + 1)
    have hfree := (uniqueSheetName_spec (safeSheetName (intendedName p idx) idx) used).1
    constructor
    · intro nm hm
      rcases List.mem_cons.mp hm with rfl | hm
      · exact hfree
      · exact fun hin => hnm nm hm (List.mem_cons.mpr (Or.inr hin))
    · refine List.nodup_cons.mpr ⟨?_, hnd⟩
      intro hin
      exact hnm _ hin (List.mem_cons.mpr (Or.inl rfl))

theorem assignNamesGo_len : ∀ (ps : List XPage) (used : List (List Char)) (idx : ℕ),
    used.length + ps.length ≤ 8 →
    ∀ nm ∈ assignNamesGo used idx ps, nm.length ≤ 31 := by
  intro ps
  induction ps with
  | nil => intro used idx _ nm hm; simp [assignNamesGo] at hm
  | cons p ps ih =>
    intro used idx hlen nm hm
    rcases List.mem_cons.mp hm with rfl | hm
    · set base := safeSheetName (intendedName p idx) idx with hbase
      have hb : base.length ≤ 31 := safeSheetName_len _ _
      rcases (uniqueSheetName_spec base used).2 with he | ⟨m, hm2, hm3, he⟩
      · rw [he]; exact hb
      · rw [he, candName_len]
        have hm9 : m ≤ 9 := by
          have : used.length ≤ 7 := by simp at hlen; omega
          omega
        rw [natRepr_len_single hm9]
        omega
    · exact ih _ (idx + 1) (by simp at hlen ⊢; omega) nm hm

/-- C2 counterexample: ten pages all wanting the same 31-character name;
the tenth resolved name has 32 characters, violating the claimed
31-character bound. -/
theorem C2_sheet_names_counterexample :
    tenClashPages.length = 10 ∧
    (assignSheetNames tenClashPages).map List.length =
      [31, 31, 31, 31, 31, 31, 31, 31, 31, 32] := by
  constructor
  · decide
  · decide

/-- C2 (amended): for every page sequence the produced sheet names are
pairwise distinct (resolution is a pure function of page order); every
name is at most 31 characters provided the workbook has at most 8 pages,
which keeps every collision counter at or below 9 so the reserved
4-character suffix still fits.  From 9 pages on a counter can reach 10,
whose 5-character suffix overflows the bound (see the counterexample). -/
theorem C2_sheet_names :
    (∀ pages : List XPage, (assignSheetNames pages).Nodup) ∧
    (∀ pages : List XPage, pages.length ≤ 8 →
      ∀ nm ∈ assignSheetNames pages, nm.length ≤ 31) := by
  constructor
  · intro pages
    exact (assignNamesGo_spec pages [] 0).2
  · intro pages hlen nm hm
    exact assignNamesGo_len pages [] 0 (by simpa using hlen) nm hm

/-- Witness for C2 on the spec's own example: two pages named "Summary". -/
theorem C2_sheet_names_witness :
    assignSheetNames [namedPage "Summary".data, namedPage "Summary".data] =
      ["Summary".data, "Summary (2)".data] ∧
    (assignSheetNames [namedPage "Summary".data, namedPage "Summary".data]).Nodup ∧
    ∀ nm ∈ assignSheetNames [namedPage "Summary".data, namedPage "Summary".data],
      nm.length ≤ 31 := by
  refine ⟨by decide, C2_sheet_names.1 _, C2_sheet_names.2 _ (by decide)⟩

/-! ## Currency formatting (C3) -/

theorem groupGo_small (r : List Char) (h : r.length ≤ 3) : groupGo r 0 = r := by
  rcases r with _ | ⟨a, _ | ⟨b, _ | ⟨c, rest⟩⟩⟩
  · rfl
  · simp [groupGo]
  · simp [groupGo]
  · have h3 : rest.length + 3 ≤ 3 := by simpa using h
    have : rest = [] := List.eq_nil_of_length_eq_zero (by omega)
    subst this
    simp [groupGo]

theorem groupGo_three (a b c : Char) (rest : List Char) :
    groupGo (a :: b :: c :: rest) 0 =
      a :: b :: c :: (if rest = [] then [] else ',' :: groupGo rest 0) := by
  cases rest with
  | nil => simp [groupGo]
  | cons d rs => simp [groupGo]

theorem groupThousands_small (ds : List Char) (h : ds.length ≤ 3) :
    groupThousands ds = ds := by
  unfold groupThousands
  rw [groupGo_small _ (by simpa using h), List.reverse_reverse]

theorem groupThousands_append3 (xs : List Char) (y1 y2 y3 : Char) (hxs : xs ≠ []) :
    groupThousands (xs ++ [y1, y2, y3]) =
      groupThousands xs ++ ',' :: [y1, y2, y3] := by
  unfold groupThousands
  have hrev : (xs ++ [y1, y2, y3]).reverse = y3 :: y2 :: y1 :: xs.reverse := by
    simp
  rw [hrev, groupGo_three, if_neg (by simpa using hxs)]
  simp

theorem grouped_exists : ∀ (n : ℕ) (ds : List Char), ds.length ≤ n → ds ≠ [] →
    (∀ c ∈ ds, isDigitC c = true) →
    ∃ (g0 : List Char) (gs : List (List Char)),
      1 ≤ g0.length ∧ g0.length ≤ 3 ∧ (∀ c ∈ g0, isDigitC c = true) ∧
      (∀ g ∈ gs, g.length = 3 ∧ ∀ c ∈ g, isDigitC c = true) ∧
      groupThousands ds = g0 ++ (gs.map (fun g => ',' :: g)).flatten := by
  intro n
  induction n with
  | zero =>
    intro ds hlen hne _
    exact absurd (List.eq_nil_of_length_eq_zero (by omega)) hne
  | succ n ih =>
    intro ds hlen hne hdig
    by_cases hsmall : ds.length ≤ 3
    · refine ⟨ds, [], ?_, by omega, hdig, by simp, by simp [groupThousands_small ds hsmall]⟩
      have := List.length_pos.mpr hne
      omega
    · push_neg at hsmall
      rcases hr : ds.reverse with _ | ⟨y3, tail1⟩
      · exact absurd (by simpa using congrArg List.length hr) hne
      rcases tail1 with _ | ⟨y2, tail2⟩
      · exact absurd (by simpa using congrArg List.length hr) (by omega)
      rcases tail2 with _ | ⟨y1, zs⟩
      · exact absurd (by simpa using congrArg List.length hr) (by omega)
      have hds : ds = zs.reverse ++ [y1, y2, y3] := by
        have := congrArg List.reverse hr
        simpa using this
      have hzlen : ds.length = zs.length + 3 := by
        rw [hds]
        simp
      have hzne : zs.reverse ≠ [] := by
        intro h
        have : zs = [] := by simpa using h
        subst this
        simp at hzlen
        omega
      have hzdig : ∀ c ∈ zs.reverse, isDigitC c = true := by
        intro c hc
        exact hdig c (hds ▸ List.mem_append.mpr (Or.inl hc))
      obtain ⟨g0, gs, h1, h2, h3, h4, h5⟩ :=
        ih zs.reverse (by rw [List.length_reverse]; omega) hzne hzdig
      refine ⟨g0, gs ++ [[y1, y2, y3]], h1, h2, h3, ?_, ?_⟩
      · intro g hg
        rcases List.mem_append.mp hg with hg | hg
        · exact h4 g hg
        · rcases List.mem_singleton.mp hg with rfl
          refine ⟨rfl, ?_⟩
          intro c hc
          have hcds : c ∈ ds := by
            rw [hds]
            exact List.mem_append.mpr (Or.inr (by simpa using hc))
          exact hdig c hcds
      · rw [hds, groupThousands_append3 _ _ _ _ hzne, h5]
        simp

theorem getD_map_of_lt {α β : Type} {f : α → β} {l : List α} {i : ℕ}
    (h : i < l.length) (d : β) (e : α) : (l.map f).getD i d = f (l.getD i e) := by
  rw [List.getD_eq_getElem _ _ (by simpa using h), List.getElem_map,
    List.getD_eq_getElem _ _ h]

theorem fmtMoney_format (q : ℚ) (h : 0 ≤ q) : MoneyFormat ('$' :: fmtMoney q) := by
  unfold fmtMoney
  dsimp only
  rw [if_neg (not_lt.mpr h)]
  set cents := (⌊|q| * 100 + 1 / 2⌋).toNat with hcents
  have hf1 : cents % 100 / 10 < 10 := by omega
  have hf2 : cents % 100 % 10 < 10 := by omega
  obtain ⟨hd1, hd1d⟩ := char_digit_facts hf1
  obtain ⟨hd2, hd2d⟩ := char_digit_facts hf2
  obtain ⟨hrd, hrne, _⟩ := natRepr_spec (cents / 100)
  obtain ⟨g0, gs, h1, h2, h3, h4, h5⟩ :=
    grouped_exists (natRepr (cents / 100)).length (natRepr (cents / 100))
      (le_refl _) hrne hrd
  exact ⟨g0, gs, Char.ofNat (48 + cents % 100 / 10),
    Char.ofNat (48 + cents % 100 % 10), h1, h2, h3, h4, hd1d, hd2d,
    by rw [h5]; simp⟩

/-- C3 counterexample: a currency cell whose raw value `"abc"` cannot be
parsed renders as `"$0.00"`, not as the raw text — the `asString`
fallback guarded by `Number.isFinite` is dead code because `toNumber` is
total. -/
theorem C3_currency_counterexample :
    jsNumberOpt (stripMoney "abc".data) = none ∧
    ((mkSheet pageBadAmount "P".data).dataRows.getD 0 []).getD 6 (.s []) =
      .s "$0.00".data ∧
    CellVal.s "$0.00".data ≠ .s "abc".data := by
  refine ⟨by decide, ?_, by decide⟩
  have hcell : ((mkSheet pageBadAmount "P".data).dataRows.getD 0 []).getD 6 (.s []) =
      .s ('$' :: fmtMoney (toNumber (.str "abc".data))) := rfl
  have ht : toNumber (.str "abc".data) = 0 := rfl
  have hz : (0 : ℚ) = ((0 : ℕ) : ℚ) / 100 := by norm_num
  have hf : fmtMoney (0 : ℚ) = "0.00".data := by
    rw [hz, fmtMoney_cents]
    decide
  rw [hcell, ht, hf]

/-- C3 (amended): a cell is a currency cell iff its column label contains
"AMOUNT" case-insensitively; every currency cell renders as the coerced
numeric value formatted `$#,##0.00` — the raw-text fallback for
unparseable values is dead code since the coercion is total, so such
values render as `$0.00`; non-currency cells render as raw text. -/
theorem C3_currency_cells :
    (∀ (p : XPage) (nm : List Char) (i j : ℕ)
        (hi : i < p.rows.length) (hj : j < (sheetHeaders p).length),
      ((mkSheet p nm).dataRows.getD i []).getD j (.s []) =
        (if isCurrencyHeader ((sheetHeaders p).getD j []) = true
         then .s ('$' :: fmtMoney (toNumber
           (getField (p.rows.getD i default) ((sheetHeaders p).getD j []))))
         else .s (asString
           (getField (p.rows.getD i default) ((sheetHeaders p).getD j []))))) ∧
    (∀ q : ℚ, 0 ≤ q → MoneyFormat ('$' :: fmtMoney q)) := by
  constructor
  · intro p nm i j hi hj
    have hrows : (mkSheet p nm).dataRows =
        p.rows.map (fun r => (sheetHeaders p).map (fun h => renderCell h r)) := rfl
    rw [hrows, getD_map_of_lt hi [] default, getD_map_of_lt hj (CellVal.s []) []]
    unfold renderCell
    split
    · rfl
    · rfl
  · exact fmtMoney_format

/-- Witness for C3 at the concrete bad-amount page, AMOUNT column. -/
theorem C3_currency_cells_witness :
    ((mkSheet pageBadAmount "P".data).dataRows.getD 0 []).getD 6 (.s []) =
      (if isCurrencyHeader ((sheetHeaders pageBadAmount).getD 6 []) = true
       then CellVal.s ('$' :: fmtMoney (toNumber
         (getField (pageBadAmount.rows.getD 0 default)
           ((sheetHeaders pageBadAmount).getD 6 []))))
       else CellVal.s (asString (getField (pageBadAmount.rows.getD 0 default)
         ((sheetHeaders pageBadAmount).getD 6 [])))) ∧
    MoneyFormat ('$' :: fmtMoney 7) :=
  ⟨C3_currency_cells.1 pageBadAmount "P".data 0 6 (by decide) (by decide),
   C3_currency_cells.2 7 (by norm_num)⟩

/-! ## The Totals Detector count rule (C1) -/

theorem digit_word {c : Char} (h : isDigitC c = true) : isWordJS c = true := by
  simp [isWordJS, h]

/-- Scanning a digit run with a word character behind finds no candidate. -/
theorem bareSmallInts_digits : ∀ (ds rest : List Char),
    (∀ c ∈ ds, isDigitC c = true) →
    bareSmallInts true (ds ++ rest) = bareSmallInts true rest := by
  intro ds
  induction ds with
  | nil => intro rest _; rfl
  | cons d ds ih =>
    intro rest hd
    have hdw : isWordJS d = true := digit_word (hd d (by simp))
    have hrun : smallRunOk true (d :: (ds ++ rest)) = false := by
      simp [smallRunOk]
    rw [List.cons_append]
    show bareSmallInts true (d :: (ds ++ rest)) = bareSmallInts true rest
    rw [bareSmallInts, hrun]
    simp only [Bool.false_eq_true, if_false, hdw]
    exact ih rest (fun c hc => hd c (by simp [hc]))

theorem mem_dropWhile_subset {p : Char → Bool} {l : List Char} :
    ∀ c ∈ l.dropWhile p, c ∈ l := by
  intro c hc
  exact (List.dropWhile_sublist p (l := l)).subset hc

/-- The lookahead succeeds exactly when a later bare small integer exists
(on terminator-free text). -/
theorem laterCandidate_iff : ∀ (l : List Char) (prevW : Bool),
    (∀ c ∈ l, isLineTerm c = false) →
    (laterCandidate prevW l = true ↔ bareSmallInts prevW l ≠ []) := by
  intro l
  induction l with
  | nil => intro prevW _; simp [laterCandidate, bareSmallInts]
  | cons c cs ih =>
    intro prevW hterm
    have hct : isLineTerm c = false := hterm c (by simp)
    rw [laterCandidate, bareSmallInts, hct]
    simp only [Bool.false_eq_true, if_false]
    by_cases hrun : smallRunOk prevW (c :: cs)
    · simp [hrun]
    · simp only [hrun, Bool.false_eq_true, if_false]
      exact ih (isWordJS c) (fun x hx => hterm x (by simp [hx]))

/-- The regex search with lookahead computes the last bare small integer
(on terminator-free text). -/
theorem countSearch_eq_lastBare : ∀ (l : List Char) (prevW : Bool),
    (∀ c ∈ l, isLineTerm c = false) →
    countSearch prevW l = ((bareSmallInts prevW l).getLast?).map digitsVal := by
  intro l
  induction l with
  | nil => intro prevW _; simp [countSearch, bareSmallInts]
  | cons c cs ih =>
    intro prevW hterm
    have hsub : ∀ x ∈ cs, isLineTerm x = false := fun x hx => hterm x (by simp [hx])
    rw [countSearch, bareSmallInts]
    by_cases hrun : smallRunOk prevW (c :: cs)
    · simp only [hrun, if_true]
      have hcd : isDigitC c = true := by
        by_contra hc
        have hcf : isDigitC c = false := by
          cases hb : isDigitC c
          · rfl
          · exact absurd hb hc
        have : (c :: cs).takeWhile isDigitC = [] := by
          rw [List.takeWhile_cons]
          simp [hcf]
        simp [smallRunOk, this] at hrun
      have hcw : isWordJS c = true := digit_word hcd
      have hcs : cs = cs.takeWhile isDigitC ++ cs.dropWhile isDigitC :=
        (List.takeWhile_append_dropWhile isDigitC cs).symm
      have hdrop : (c :: cs).dropWhile isDigitC = cs.dropWhile isDigitC := by
        rw [List.dropWhile_cons, if_pos hcd]
      have hchain : bareSmallInts (isWordJS c) cs =
          bareSmallInts true (cs.dropWhile isDigitC) := by
        rw [hcw]
        conv_lhs => rw [hcs]
        exact bareSmallInts_digits _ _ (fun x hx => List.mem_takeWhile_imp hx)
      have htermdrop : ∀ x ∈ cs.dropWhile isDigitC, isLineTerm x = false :=
        fun x hx => hsub x (mem_dropWhile_subset x hx)
      rw [hdrop]
      by_cases hlater : laterCandidate true (cs.dropWhile isDigitC) = true
      · rw [if_pos hlater]
        have hne := (laterCandidate_iff _ true htermdrop).mp hlater
        rw [ih (isWordJS c) hsub, hchain]
        cases hb : bareSmallInts true (cs.dropWhile isDigitC) with
        | nil => exact absurd hb hne
        | cons b bs => rw [List.getLast?_cons_cons]
      · rw [if_neg hlater]
        have hemp : bareSmallInts true (cs.dropWhile isDigitC) = [] := by
          by_contra hne
          exact hlater ((laterCandidate_iff _ true htermdrop).mpr hne)
        rw [hchain, hemp]
        rfl
    · simp only [hrun, Bool.false_eq_true, if_false]
      exact ih (isWordJS c) hsub

/-- `toNumber` of the string `"26,460.00"`. -/
theorem toNumber_example_amount : toNumber (.str "26,460.00".data) = 26460 := by
  have h1 : stripMoney "26,460.00".data = "26460".data ++ '.' :: "00".data := by decide
  have h2 := jsNumberOpt_decimal "26460".data "00".data (by decide) (by decide) (by decide)
  have h3 : digitsVal "26460".data = 26460 := by decide
  have h4 : digitsVal "00".data = 0 := by decide
  rw [h3, h4] at h2
  simp only [toNumber, h1, h2]
  norm_num

/-- C1 counterexample: on `"TOTAL 12 $26,460.00"` the count capture is the
cents run `"00"` (the rightmost bare 1–4-digit integer), so the extracted
count is 0, not the claimed 12. -/
theorem C1_totals_counterexample :
    (parseTotals exTotalsLine).map (fun t => t.count) = some (some 0) ∧
    (some (0 : ℕ) : Option ℕ) ≠ some 12 := by
  constructor
  · decide
  · decide

/-- C1 (amended): the example line yields amount 26460.00 but count 0 —
the rightmost standalone 1–4-digit integer is the cents `"00"` of the
amount; in general (on lines without terminator characters) the extracted
count is exactly the value of the last bare 1–4-digit integer in the
line with no other occurring later. -/
theorem C1_totals :
    parseTotals exTotalsLine =
      some { count := some 0, amount := some (26460 : ℚ) } ∧
    (∀ (l : List Char) (t : ParsedTotals),
      (∀ c ∈ l, isLineTerm c = false) →
      parseTotals l = some t → t.count = specCount l) := by
  constructor
  · have hfind : findAmount exTotalsLine = some "26,460.00".data := by decide
    have hcount : countSearch false exTotalsLine = some 0 := by decide
    have hup : containsSub "TOTAL".data (toUpperAscii exTotalsLine) = true := by decide
    unfold parseTotals
    dsimp only
    rw [hup]
    simp only [Bool.not_true, Bool.false_eq_true, if_false, hfind, hcount]
    have ht : toNumber (JsVal.str ['2', '6', ',', '4', '6', '0', '.', '0', '0']) = 26460 :=
      toNumber_example_amount
    simp [ht]
  · intro l t hterm hpt
    unfold parseTotals at hpt
    dsimp only at hpt
    split at hpt
    · exact absurd hpt (by simp)
    · split at hpt
      · exact absurd hpt (by simp)
      · have : t = ⟨countSearch false l,
            (findAmount l).map (fun g => toNumber (.str g))⟩ := by
          injection hpt with h
          exact h.symm
        rw [this]
        show countSearch false l = specCount l
        rw [countSearch_eq_lastBare l false hterm]
        rfl

/-- Witness for C1's general count rule at the example line. -/
theorem C1_totals_witness :
    ({ count := some 0, amount := some (26460 : ℚ) } : ParsedTotals).count =
      specCount exTotalsLine :=
  C1_totals.2 exTotalsLine _ (by decide) C1_totals.1

/-! ## Row Parser soundness -/

theorem matchSin_sound {l sin r : List Char} (h : matchSin l = some (sin, r)) :
    l = sin ++ r ∧ SinShape sin := by
  unfold matchSin at h
  split at h
  · rename_i a b c s1 d e f s2 g h2 i rest
    split at h
    · rename_i hcond
      simp only [Bool.and_eq_true, decide_eq_true_eq] at hcond
      obtain ⟨⟨hs1, hs2⟩, hdig⟩ := hcond
      subst hs1
      subst hs2
      injection h with h
      injection h with h1 h2'
      subst h1
      subst h2'
      exact ⟨by simp, ⟨a, b, c, d, e, f, g, h2, i, by simpa using hdig, rfl⟩⟩
    · exact absurd h (by simp)
  · exact absurd h (by simp)

theorem matchDate_sound {l d r : List Char} (h : matchDate l = some (d, r)) :
    l = d ++ r ∧ DateShape d := by
  unfold matchDate at h
  split at h
  · rename_i a b s1 c d2 s2 e f rest
    split at h
    · rename_i hcond
      simp only [Bool.and_eq_true, decide_eq_true_eq] at hcond
      obtain ⟨⟨hs1, hs2⟩, hdig⟩ := hcond
      subst hs1
      subst hs2
      injection h with h
      injection h with h1 h2'
      subst h1
      subst h2'
      exact ⟨by simp, ⟨a, b, c, d2, e, f, by simpa using hdig, rfl⟩⟩
    · exact absurd h (by simp)
  · exact absurd h (by simp)

theorem matchAmountEnd_sound {l a : List Char} (h : matchAmountEnd l = some a) :
    a = l ∧ AmountShape l := by
  unfold matchAmountEnd at h
  dsimp only at h
  set body := if l.head? = some '$' then l.tail else l with hbody
  rcases hb : body.reverse with _ | ⟨d2, _ | ⟨d1, _ | ⟨dot, preRev⟩⟩⟩ <;>
    rw [hb] at h <;> dsimp only at h
  · simp at h
  · simp at h
  · simp at h
  · by_cases hcond : (decide (dot = '.') && isDigitC d1 && isDigitC d2 &&
        decide (preRev ≠ []) && preRev.all isDigitComma) = true
    · rw [if_pos hcond] at h
      simp only [Bool.and_eq_true, decide_eq_true_eq] at hcond
      obtain ⟨⟨⟨⟨hdot, hd1⟩, hd2⟩, hpne⟩, hall⟩ := hcond
      subst hdot
      injection h with h
      subst h
      refine ⟨rfl, ?_⟩
      have hbodyeq : body = preRev.reverse ++ '.' :: [d1, d2] := by
        have := congrArg List.reverse hb
        simpa using this
      have hprene : preRev.reverse ≠ [] := by simpa using hpne
      have hpred : ∀ c ∈ preRev.reverse, isDigitComma c = true := by
        intro c hc
        exact List.all_eq_true.mp hall c (List.mem_reverse.mp hc)
      by_cases hdol : l.head? = some '$'
      · rcases l with _ | ⟨c0, r0⟩
        · simp at hdol
        · have hc0 : c0 = '$' := by simpa using hdol
          subst hc0
          rw [hbody, if_pos (by simp)] at hbodyeq
          simp only [List.tail_cons] at hbodyeq
          exact ⟨['$'], preRev.reverse, d1, d2, Or.inr rfl, hprene, hpred, hd1,
            hd2, by rw [hbodyeq]; rfl⟩
      · rw [hbody, if_neg hdol] at hbodyeq
        exact ⟨[], preRev.reverse, d1, d2, Or.inl rfl, hprene, hpred, hd1, hd2,
          by rw [hbodyeq]; rfl⟩
    · rw [if_neg hcond] at h
      simp at h

theorem matchDateAmountEnd_sound {l : List Char} {d a : List Char}
    (h : matchDateAmountEnd l = some (d, a)) :
    ∃ w1 w2, l = w1 ++ d ++ w2 ++ a ∧ WsPlus w1 ∧ DateShape d ∧
      WsPlus w2 ∧ AmountShape a := by
  unfold matchDateAmountEnd at h
  dsimp only at h
  split at h
  · exact absurd h (by simp)
  · rename_i hw1
    split at h
    · exact absurd h (by simp)
    · rename_i d0 r2 hd0
      split at h
      · exact absurd h (by simp)
      · rename_i hw2
        rcases hma : matchAmountEnd (r2.dropWhile isWsJS) with _ | a0 <;>
          rw [hma] at h
        · simp at h
        · rw [Option.map_some'] at h
          injection h with h
          injection h with h1 h2
          subst h1
          subst h2
          obtain ⟨hdec, hdate⟩ := matchDate_sound hd0
          obtain ⟨haeq, hamt⟩ := matchAmountEnd_sound hma
          subst haeq
          refine ⟨l.takeWhile isWsJS, r2.takeWhile isWsJS, ?_, ?_, hdate, ?_, hamt⟩
          · conv_lhs => rw [← List.takeWhile_append_dropWhile isWsJS l]
            rw [hdec]
            conv_lhs => rw [← List.takeWhile_append_dropWhile isWsJS r2]
            simp
          · exact ⟨hw1, fun c hc => List.mem_takeWhile_imp hc⟩
          · exact ⟨hw2, fun c hc => List.mem_takeWhile_imp hc⟩

theorem nameSearch_sound : ∀ (rest accRev nm d a : List Char),
    nameSearch accRev rest = some (nm, d, a) →
    ∃ ext w1 w2, nm = accRev.reverse ++ ext ∧
      (∀ c ∈ ext, isDotJS c = true) ∧
      rest = ext ++ w1 ++ d ++ w2 ++ a ∧
      WsPlus w1 ∧ DateShape d ∧ WsPlus w2 ∧ AmountShape a := by
  intro rest
  induction rest with
  | nil =>
    intro accRev nm d a h
    rw [show nameSearch accRev [] =
        (matchDateAmountEnd []).map (fun p => (accRev.reverse, p.1, p.2)) from
      rfl] at h
    rw [show matchDateAmountEnd [] = none from rfl] at h
    simp at h
  | cons c rs ih =>
    intro accRev nm d a h
    rw [show nameSearch accRev (c :: rs) =
        (match matchDateAmountEnd (c :: rs) with
         | some (d, a) => some (accRev.reverse, d, a)
         | none => if isDotJS c then nameSearch (c :: accRev) rs else none) from
      rfl] at h
    rcases hm : matchDateAmountEnd (c :: rs) with _ | ⟨d0, a0⟩ <;> rw [hm] at h
    · by_cases hc : isDotJS c = true
      · rw [if_pos hc] at h
        obtain ⟨ext, w1, w2, hnm, hdot, hsplit, hw1, hd, hw2, ha⟩ :=
          ih (c :: accRev) nm d a h
        refine ⟨c :: ext, w1, w2, ?_, ?_, ?_, hw1, hd, hw2, ha⟩
        · rw [hnm]; simp
        · intro x hx
          rcases List.mem_cons.mp hx with rfl | hx
          · exact hc
          · exact hdot x hx
        · rw [hsplit]; simp
      · rw [if_neg hc] at h
        simp at h
    · injection h with h
      injection h with h1 h2
      injection h2 with h2 h3
      subst h1
      subst h2
      subst h3
      obtain ⟨w1, w2, hsplit, hw1, hd, hw2, ha⟩ := matchDateAmountEnd_sound hm
      exact ⟨[], w1, w2, by simp, by simp, by simpa using hsplit, hw1, hd, hw2, ha⟩

theorem startName_sound {l nm d a : List Char}
    (h : startName l = some (nm, d, a)) :
    ∃ w1 w2, nm ≠ [] ∧ (∀ c ∈ nm, isDotJS c = true) ∧
      l = nm ++ w1 ++ d ++ w2 ++ a ∧
      WsPlus w1 ∧ DateShape d ∧ WsPlus w2 ∧ AmountShape a := by
  unfold startName at h
  split at h
  · simp at h
  · rename_i c rs
    by_cases hc : isDotJS c = true
    · rw [if_pos hc] at h
      obtain ⟨ext, w1, w2, hnm, hdot, hsplit, hw1, hd, hw2, ha⟩ :=
        nameSearch_sound rs [c] nm d a h
      refine ⟨w1, w2, ?_, ?_, ?_, hw1, hd, hw2, ha⟩
      · rw [hnm]; simp
      · intro x hx
        rw [hnm] at hx
        rcases List.mem_append.mp hx with hx | hx
        · simp at hx
          subst hx
          exact hc
        · exact hdot x hx
      · rw [hnm, hsplit]; simp
    · rw [if_neg hc] at h
      simp at h

theorem tailLoop_sound : ∀ (wsRev start nm d a : List Char),
    tailLoop wsRev start = some (nm, d, a) →
    ∃ g k, wsRev = g.reverse ++ k ∧ k ≠ [] ∧
      startName (g ++ start) = some (nm, d, a) := by
  intro wsRev
  induction wsRev with
  | nil =>
    intro start nm d a h
    simp [tailLoop] at h
  | cons c rest ih =>
    intro start nm d a h
    rcases rest with _ | ⟨c2, rest2⟩
    · refine ⟨[], [c], by simp, by simp, ?_⟩
      simpa [tailLoop] using h
    · rw [show tailLoop (c :: c2 :: rest2) start =
          match startName start with
          | some x => some x
          | none => tailLoop (c2 :: rest2) (c :: start) from rfl] at h
      rcases hs : startName start with _ | x <;> rw [hs] at h
      · obtain ⟨g, k, hg, hk, hstart⟩ := ih (c :: start) nm d a h
        refine ⟨g ++ [c], k, ?_, hk, ?_⟩
        · rw [List.reverse_append]
          simp [hg]
        · simpa using hstart
      · injection h with h
        subst h
        exact ⟨[], c :: c2 :: rest2, rfl, by simp, hs⟩

theorem matchGov_sound (l : List Char) :
    (∀ g r, matchGov l = (some g, r) →
       l = g ++ r ∧ ∃ a b, isUpperAZ a = true ∧ isUpperAZ b = true ∧ g = [a, b]) ∧
    (∀ r, matchGov l = (none, r) → r = l) := by
  constructor
  · intro g r h
    unfold matchGov at h
    split at h
    · rename_i a b rest
      by_cases hab : (isUpperAZ a && isUpperAZ b) = true
      · rw [if_pos hab] at h
        injection h with h1 h2
        injection h1 with h1
        subst h1
        subst h2
        simp only [Bool.and_eq_true] at hab
        exact ⟨rfl, a, b, hab.1, hab.2, rfl⟩
      · rw [if_neg hab] at h
        injection h with h1 h2
        exact absurd h1 (by simp)
    · injection h with h1 h2
      exact absurd h1 (by simp)
  · intro r h
    unfold matchGov at h
    split at h
    · rename_i a b rest
      by_cases hab : (isUpperAZ a && isUpperAZ b) = true
      · rw [if_pos hab] at h
        injection h with h1 h2
        exact absurd h1 (by simp)
      · rw [if_neg hab] at h
        injection h with h1 h2
        exact h2.symm
    · injection h with h1 h2
      exact h2.symm

theorem rowGrammar_intro (l sn sin cert nm dt am : List Char)
    (govOpt : Option (List Char)) (w1 w2 gpart w2b w3 w4 w5 : List Char)
    (heq : l = sn ++ w1 ++ sin ++ w2 ++ gpart ++ w2b ++ cert ++ w3 ++ nm ++
      w4 ++ dt ++ w5 ++ am)
    (h1 : 3 ≤ sn.length) (h2 : ∀ c ∈ sn, isDigitC c = true)
    (h3 : WsPlus w1) (h4 : SinShape sin) (h5 : WsPlus w2)
    (hgovs : ∀ gg, govOpt = some gg → gpart = gg ∧
      ∃ a b, isUpperAZ a = true ∧ isUpperAZ b = true ∧ gg = [a, b])
    (hgovn : govOpt = none → gpart = [])
    (h6 : WsStar w2b) (h7 : 4 ≤ cert.length)
    (h8 : ∀ c ∈ cert, isDigitC c = true)
    (h9 : WsPlus w3) (h10 : nm ≠ []) (h11 : ∀ c ∈ nm, isDotJS c = true)
    (h12 : WsPlus w4) (h13 : DateShape dt) (h14 : WsPlus w5)
    (h15 : AmountShape am) :
    RowGrammar l { studentNo := sn, sin := sin, gov := govOpt, cert := cert,
                   name := nm, eosDate := dt, amount := am } := by
  refine ⟨w1, w2, gpart, w2b, w3, w4, w5, heq, h1, h2, h3, h4, h5, ?_, h6,
    h7, h8, h9, h10, h11, h12, h13, h14, h15⟩
  cases govOpt with
  | none => exact hgovn rfl
  | some gg => exact hgovs gg rfl

theorem parseRowCore_sound {l : List Char} {f : ParsedRow}
    (h : parseRowCore l = some f) : RowGrammar l f := by
  unfold parseRowCore at h
  dsimp only at h
  split at h
  · exact absurd h (by simp)
  · rename_i hlen
    split at h
    · exact absurd h (by simp)
    · rename_i hw1
      rcases hsin : matchSin ((l.dropWhile isDigitC).dropWhile isWsJS) with
        _ | ⟨sin, r3⟩ <;> rw [hsin] at h <;> dsimp only at h
      · simp at h
      · split at h
        · exact absurd h (by simp)
        · rename_i hw2
          rcases hgov : matchGov (r3.dropWhile isWsJS) with ⟨govOpt, r5⟩
          rw [hgov] at h
          dsimp only at h
          split at h
          · exact absurd h (by simp)
          · rename_i hclen
            split at h
            · exact absurd h (by simp)
            · rename_i hw3
              rcases htail : tailLoop
                  ((((r5.dropWhile isWsJS).dropWhile isDigitC).takeWhile isWsJS).reverse)
                  (((r5.dropWhile isWsJS).dropWhile isDigitC).dropWhile isWsJS) with
                _ | ⟨name, date, amount⟩ <;> rw [htail] at h <;> dsimp only at h
              · simp at h
              · injection h with h
                subst h
                obtain ⟨esin, hsinshape⟩ := matchSin_sound hsin
                have hgove : r3.dropWhile isWsJS = govStr govOpt ++ r5 := by
                  cases govOpt with
                  | none =>
                    have h5 := (matchGov_sound _).2 r5 hgov
                    simp [govStr, h5]
                  | some gg => exact ((matchGov_sound _).1 gg r5 hgov).1
                obtain ⟨g, k, hgk, hkne, hstart⟩ := tailLoop_sound _ _ _ _ _ htail
                obtain ⟨w4, w5, hnmne, hdot, hsplit, hw4, hdate, hw5, hamt⟩ :=
                  startName_sound hstart
                have hw3eq : ((r5.dropWhile isWsJS).dropWhile isDigitC).takeWhile isWsJS =
                    k.reverse ++ g := by
                  have := congrArg List.reverse hgk
                  simpa using this
                refine rowGrammar_intro l _ sin _ name date amount govOpt
                  ((l.dropWhile isDigitC).takeWhile isWsJS)
                  (r3.takeWhile isWsJS) (govStr govOpt) (r5.takeWhile isWsJS)
                  k.reverse w4 w5 ?_ ?_ ?_ ?_ hsinshape ?_ ?_ ?_ ?_ ?_ ?_ ?_
                  hnmne hdot hw4 hdate hw5 hamt
                · conv_lhs =>
                    rw [← List.takeWhile_append_dropWhile isDigitC l,
                      ← List.takeWhile_append_dropWhile isWsJS (l.dropWhile isDigitC),
                      esin,
                      ← List.takeWhile_append_dropWhile isWsJS r3,
                      hgove,
                      ← List.takeWhile_append_dropWhile isWsJS r5,
                      ← List.takeWhile_append_dropWhile isDigitC (r5.dropWhile isWsJS),
                      ← List.takeWhile_append_dropWhile isWsJS
                          ((r5.dropWhile isWsJS).dropWhile isDigitC),
                      hw3eq]
                  have hkg : (k.reverse ++ g) ++
                      (((r5.dropWhile isWsJS).dropWhile isDigitC).dropWhile isWsJS) =
                      k.reverse ++ (name ++ w4 ++ date ++ w5 ++ amount) := by
                    rw [List.append_assoc, hsplit]
                  rw [hkg]
                  simp [List.append_assoc]
                · omega
                · exact fun c hc => List.mem_takeWhile_imp hc
                · exact ⟨hw1, fun c hc => List.mem_takeWhile_imp hc⟩
                · exact ⟨hw2, fun c hc => List.mem_takeWhile_imp hc⟩
                · intro gg hgg
                  subst hgg
                  obtain ⟨-, a, b, ha, hb, hggeq⟩ := (matchGov_sound _).1 gg r5 hgov
                  exact ⟨rfl, a, b, ha, hb, hggeq⟩
                · intro hgg
                  subst hgg
                  rfl
                · exact fun c hc => List.mem_takeWhile_imp hc
                · omega
                · exact fun c hc => List.mem_takeWhile_imp hc
                · refine ⟨by simpa using hkne, ?_⟩
                  intro c hc
                  have hc2 : c ∈ (((r5.dropWhile isWsJS).dropWhile isDigitC).takeWhile
                      isWsJS).reverse := by
                    rw [hgk]
                    exact List.mem_append_right _ (List.mem_reverse.mp hc)
                  exact List.mem_takeWhile_imp (List.mem_reverse.mp hc2)

/-- C5: the Row Parser maps the example line to exactly the example field
set, and it is all-or-nothing: every successful parse of a line realizes a
decomposition of the normalized line by the anchored row grammar, so a line
admitting no such decomposition yields no row. -/
theorem C5_row_parse :
    parseRow exRowLine = some exRow ∧
    (∀ l f, parseRow l = some f → RowGrammar (normalize l) f) ∧
    (∀ l, (¬ ∃ f, RowGrammar (normalize l) f) → parseRow l = none) := by
  refine ⟨by decide, ?_, ?_⟩
  · intro l f hp
    exact parseRowCore_sound hp
  · intro l hn
    rcases hp : parseRow l with _ | f
    · rfl
    · exact absurd ⟨f, parseRowCore_sound hp⟩ hn

theorem C5_row_parse_witness :
    parseRow exRowLine = some exRow ∧ parseRow [] = none := by
  refine ⟨C5_row_parse.1, C5_row_parse.2.2 [] ?_⟩
  rintro ⟨f, w1, w2, g, w2b, w3, w4, w5, heq, h3, -⟩
  have h0 : normalize ([] : List Char) = [] := rfl
  rw [h0] at heq
  have hlen := congrArg List.length heq
  simp only [List.length_append, List.length_nil] at hlen
  omega

theorem stripMoney_keep_digit {c : Char} (hc : isDigitC c = true) :
    (!(decide (c = ',') || decide (c = '$') || isWsJS c)) = true := by
  have hne1 : c ≠ ',' := fun he => by subst he; exact absurd hc (by decide)
  have hne2 : c ≠ '$' := fun he => by subst he; exact absurd hc (by decide)
  simp [hne1, hne2, digit_not_ws hc]

/-- `toNumber` on any string of the regex amount class yields an exact
two-decimal nonnegative value. -/
theorem toNumber_amountShape {a : List Char} (h : AmountShape a) :
    ∃ n : ℕ, toNumber (.str a) = (n : ℚ) / 100 := by
  obtain ⟨dol, pre, d1, d2, hdol, hpre, hprec, hd1, hd2, heq⟩ := h
  subst heq
  have hdolz : stripMoney dol = [] := by
    rcases hdol with rfl | rfl <;> rfl
  have htail : stripMoney ('.' :: [d1, d2]) = '.' :: [d1, d2] := by
    unfold stripMoney
    refine List.filter_eq_self.mpr ?_
    intro c hc
    simp only [List.mem_cons, List.not_mem_nil, or_false] at hc
    rcases hc with rfl | rfl | rfl
    · decide
    · exact stripMoney_keep_digit hd1
    · exact stripMoney_keep_digit hd2
  have happ : ∀ x y : List Char, stripMoney (x ++ y) = stripMoney x ++ stripMoney y := by
    intro x y
    unfold stripMoney
    exact List.filter_append _ _
  have hstrip : stripMoney (dol ++ pre ++ '.' :: [d1, d2]) =
      stripMoney pre ++ '.' :: [d1, d2] := by
    rw [happ, happ, hdolz, htail]
    rfl
  have hds : ∀ c ∈ stripMoney pre, isDigitC c = true := by
    intro c hc
    unfold stripMoney at hc
    have hcm := List.mem_of_mem_filter hc
    have hcp := List.of_mem_filter hc
    have hdc := hprec c hcm
    simp only [isDigitComma, Bool.or_eq_true, decide_eq_true_eq] at hdc
    rcases hdc with h | h
    · exact h
    · subst h
      simp at hcp
  have hfs : ∀ c ∈ [d1, d2], isDigitC c = true := by
    intro c hc
    rcases List.mem_cons.mp hc with rfl | hc
    · exact hd1
    · rcases List.mem_cons.mp hc with rfl | hc
      · exact hd2
      · simp at hc
  have hval : toNumber (.str (dol ++ pre ++ '.' :: [d1, d2])) =
      (digitsVal (stripMoney pre) : ℚ) +
        (digitsVal [d1, d2] : ℚ) / (10 : ℚ) ^ ([d1, d2].length) := by
    simp only [toNumber]
    rw [hstrip, jsNumberOpt_decimal _ _ hds hfs (by simp)]
  refine ⟨digitsVal (stripMoney pre) * 100 + digitsVal [d1, d2], ?_⟩
  rw [hval]
  push_cast
  field_simp
  ring

/-- C9: numeric coercion is total with default `0` — a number passes
through, `undefined` and unparseable strings coerce to `0`, a parseable
string takes its parsed value — and the amount field of every line the Row
Parser accepts coerces to a nonnegative exact two-decimal value. -/
theorem C9_numeric_coercion :
    (∀ q, toNumber (.num q) = q) ∧
    toNumber .undef = 0 ∧
    (∀ s, jsNumberOpt (stripMoney s) = none → toNumber (.str s) = 0) ∧
    (∀ s q, jsNumberOpt (stripMoney s) = some q → toNumber (.str s) = q) ∧
    (∀ line f, parseRow line = some f →
      ∃ n : ℕ, toNumber (.str f.amount) = (n : ℚ) / 100 ∧
        0 ≤ toNumber (.str f.amount)) := by
  refine ⟨fun q => rfl, rfl, ?_, ?_, ?_⟩
  · intro s hnone
    simp only [toNumber]
    rw [hnone]
  · intro s q hsome
    simp only [toNumber]
    rw [hsome]
  · intro line f hp
    have hg := parseRowCore_sound hp
    obtain ⟨w1, w2, g, w2b, w3, w4, w5, -, -, -, -, -, -, -, -, -, -, -, -,
      -, -, -, -, hamt⟩ := hg
    obtain ⟨n, hn⟩ := toNumber_amountShape hamt
    refine ⟨n, hn, ?_⟩
    rw [hn]
    positivity

theorem C9_numeric_coercion_witness :
    toNumber (.num 5) = 5 ∧
    toNumber (.str "abc".data) = 0 ∧
    ∃ n : ℕ, toNumber (.str exRow.amount) = (n : ℚ) / 100 ∧
      0 ≤ toNumber (.str exRow.amount) := by
  refine ⟨C9_numeric_coercion.1 5,
    C9_numeric_coercion.2.2.1 "abc".data (by decide),
    C9_numeric_coercion.2.2.2.2 exRowLine exRow (by decide)⟩

/-! ## Row Parser completeness (towards the round-trip claim) -/

theorem sinShape_chars {s : List Char} (h : SinShape s) :
    ∀ c ∈ s, isDigitC c = true ∨ c = '-' := by
  obtain ⟨a, b, c, d, e, f, g, h2, i, hdig, rfl⟩ := h
  simp only [List.all_eq_true, List.mem_cons, List.not_mem_nil, or_false,
    forall_eq_or_imp, forall_eq] at hdig
  intro x hx
  simp only [List.mem_cons, List.not_mem_nil, or_false] at hx
  obtain ⟨h1, h3, h4, h5, h6, h7, h8, h9, h10⟩ := hdig
  rcases hx with rfl | rfl | rfl | rfl | rfl | rfl | rfl | rfl | rfl | rfl | rfl
  · exact Or.inl h1
  · exact Or.inl h3
  · exact Or.inl h4
  · exact Or.inr rfl
  · exact Or.inl h5
  · exact Or.inl h6
  · exact Or.inl h7
  · exact Or.inr rfl
  · exact Or.inl h8
  · exact Or.inl h9
  · exact Or.inl h10

theorem dateShape_chars {s : List Char} (h : DateShape s) :
    ∀ c ∈ s, isDigitC c = true ∨ c = '/' := by
  obtain ⟨a, b, c, d, e, f, hdig, rfl⟩ := h
  simp only [List.all_eq_true, List.mem_cons, List.not_mem_nil, or_false,
    forall_eq_or_imp, forall_eq] at hdig
  intro x hx
  simp only [List.mem_cons, List.not_mem_nil, or_false] at hx
  obtain ⟨h1, h2, h3, h4, h5, h6⟩ := hdig
  rcases hx with rfl | rfl | rfl | rfl | rfl | rfl | rfl | rfl
  · exact Or.inl h1
  · exact Or.inl h2
  · exact Or.inr rfl
  · exact Or.inl h3
  · exact Or.inl h4
  · exact Or.inr rfl
  · exact Or.inl h5
  · exact Or.inl h6

theorem amountShape_chars {s : List Char} (h : AmountShape s) :
    ∀ c ∈ s, isDigitC c = true ∨ c = ',' ∨ c = '.' ∨ c = '$' := by
  obtain ⟨dol, pre, d1, d2, hdol, hpre, hprec, hd1, hd2, rfl⟩ := h
  intro x hx
  rcases List.mem_append.mp hx with hx | hx
  · rcases List.mem_append.mp hx with hx | hx
    · rcases hdol with rfl | rfl
      · simp at hx
      · simp only [List.mem_cons, List.not_mem_nil, or_false] at hx
        subst hx
        exact Or.inr (Or.inr (Or.inr rfl))
    · have := hprec x hx
      simp only [isDigitComma, Bool.or_eq_true, decide_eq_true_eq] at this
      rcases this with h | h
      · exact Or.inl h
      · exact Or.inr (Or.inl h)
  · simp only [List.mem_cons, List.not_mem_nil, or_false] at hx
    rcases hx with rfl | rfl | rfl
    · exact Or.inr (Or.inr (Or.inl rfl))
    · exact Or.inl hd1
    · exact Or.inl hd2

theorem amountShape_ne_nil {s : List Char} (h : AmountShape s) : s ≠ [] := by
  obtain ⟨dol, pre, d1, d2, hdol, hpre, hprec, hd1, hd2, rfl⟩ := h
  simp

theorem amountShape_nonWs {s : List Char} (h : AmountShape s) :
    ∀ c ∈ s, isWsJS c = false := by
  intro c hc
  rcases amountShape_chars h c hc with h1 | rfl | rfl | rfl
  · exact digit_not_ws h1
  · decide
  · decide
  · decide

theorem dateShape_len {s : List Char} (h : DateShape s) : s.length = 8 := by
  obtain ⟨a, b, c, d, e, f, hdig, rfl⟩ := h
  rfl

theorem dateShape_getLast {s : List Char} (h : DateShape s) :
    ∃ x, s.getLast? = some x ∧ isDigitC x = true := by
  obtain ⟨a, b, c, d, e, f, hdig, rfl⟩ := h
  simp only [List.all_eq_true, List.mem_cons, List.not_mem_nil, or_false,
    forall_eq_or_imp, forall_eq] at hdig
  exact ⟨f, rfl, hdig.2.2.2.2.2⟩

theorem dateShape_nonWs {s : List Char} (h : DateShape s) :
    ∀ c ∈ s, isWsJS c = false := by
  intro c hc
  rcases dateShape_chars h c hc with h1 | rfl
  · exact digit_not_ws h1
  · decide

theorem amountGrouped_shape {s : List Char} (h : AmountGrouped s) :
    AmountShape s := by
  obtain ⟨dol, g0, gs, d1, d2, hdol, hg1, hg3, hg0, hgs, hd1, hd2, rfl⟩ := h
  refine ⟨dol, g0 ++ (gs.map (fun g => ',' :: g)).flatten, d1, d2, hdol, ?_, ?_,
    hd1, hd2, by simp⟩
  · intro he
    rcases List.append_eq_nil.mp he with ⟨h0, -⟩
    rw [h0] at hg1
    simp at hg1
  · intro c hc
    rcases List.mem_append.mp hc with hc | hc
    · simp [isDigitComma, hg0 c hc]
    · rw [List.mem_flatten] at hc
      obtain ⟨gl, hgl, hcgl⟩ := hc
      rw [List.mem_map] at hgl
      obtain ⟨g, hg, rfl⟩ := hgl
      rcases List.mem_cons.mp hcgl with rfl | hcg
      · simp [isDigitComma]
      · simp [isDigitComma, (hgs g hg).2 c hcg]

theorem matchAmountEnd_complete {a : List Char} (h : AmountShape a) :
    matchAmountEnd a = some a := by
  obtain ⟨dol, pre, d1, d2, hdol, hpre, hprec, hd1, hd2, rfl⟩ := h
  unfold matchAmountEnd
  dsimp only
  have hbody : (if (dol ++ pre ++ '.' :: [d1, d2]).head? = some '$'
      then (dol ++ pre ++ '.' :: [d1, d2]).tail
      else dol ++ pre ++ '.' :: [d1, d2]) = pre ++ '.' :: [d1, d2] := by
    rcases hdol with rfl | rfl
    · rw [if_neg]
      · simp
      · rcases pre with _ | ⟨p0, ps⟩
        · exact absurd rfl hpre
        · intro he
          simp only [List.nil_append, List.cons_append, List.head?_cons,
            Option.some.injEq] at he
          subst he
          have := hprec '$' (by simp)
          exact absurd this (by decide)
    · rw [if_pos (by simp)]
      simp
  rw [hbody]
  rw [show (pre ++ '.' :: [d1, d2]).reverse = d2 :: d1 :: '.' :: pre.reverse by
    simp]
  dsimp only
  have hcond : (decide ('.' = '.') && isDigitC d1 && isDigitC d2 &&
      decide (pre.reverse ≠ []) && pre.reverse.all isDigitComma) = true := by
    simp only [Bool.and_eq_true, decide_eq_true_eq]
    refine ⟨⟨⟨⟨trivial, hd1⟩, hd2⟩, by simpa using hpre⟩, ?_⟩
    rw [List.all_eq_true]
    intro c hc
    exact hprec c (List.mem_reverse.mp hc)
  rw [if_pos hcond]

theorem matchDateAmountEnd_complete {date amount : List Char}
    (hd : DateShape date) (ha : AmountShape amount) :
    matchDateAmountEnd (' ' :: (date ++ ' ' :: amount)) = some (date, amount) := by
  obtain ⟨a, b, c, d, e, f, hdig, hdeq⟩ := hd
  have hdig6 := hdig
  simp only [List.all_eq_true, List.mem_cons, List.not_mem_nil, or_false,
    forall_eq_or_imp, forall_eq] at hdig6
  obtain ⟨h1, h2, h3, h4, h5, h6⟩ := hdig6
  have hane := amountShape_ne_nil ha
  rcases hamt : amount with _ | ⟨a0, as⟩
  · exact absurd hamt hane
  have ha0 : isWsJS a0 = false :=
    amountShape_nonWs ha a0 (by rw [hamt]; simp)
  rw [← hamt]
  unfold matchDateAmountEnd
  subst hdeq
  have hsp : isWsJS ' ' = true := by decide
  have htw : (' ' :: ([a, b, '/', c, d, '/', e, f] ++ ' ' :: amount)).takeWhile
      isWsJS = [' '] := by
    simp [List.takeWhile_cons, hsp, digit_not_ws h1]
  have hdw : (' ' :: ([a, b, '/', c, d, '/', e, f] ++ ' ' :: amount)).dropWhile
      isWsJS = [a, b, '/', c, d, '/', e, f] ++ ' ' :: amount := by
    simp [List.dropWhile_cons, hsp, digit_not_ws h1]
  rw [htw, hdw]
  dsimp only
  have hmd : matchDate ([a, b, '/', c, d, '/', e, f] ++ ' ' :: amount) =
      some ([a, b, '/', c, d, '/', e, f], ' ' :: amount) := by
    show matchDate (a :: b :: '/' :: c :: d :: '/' :: e :: f :: (' ' :: amount)) = _
    unfold matchDate
    dsimp only
    rw [if_pos (by simp [h1, h2, h3, h4, h5, h6])]
  rw [hmd]
  dsimp only
  have htw2 : (' ' :: amount).takeWhile isWsJS = [' '] := by
    rw [hamt]
    simp [List.takeWhile_cons, hsp, ha0]
  have hdw2 : (' ' :: amount).dropWhile isWsJS = amount := by
    rw [hamt]
    simp [List.dropWhile_cons, hsp, ha0]
  rw [htw2, hdw2, matchAmountEnd_complete ha]
  rfl

theorem getLast_exists {l : List Char} (h : l ≠ []) : ∃ c, l.getLast? = some c := by
  rcases hl : l.getLast? with _ | c
  · rw [List.getLast?_eq_none_iff] at hl
    exact absurd hl h
  · exact ⟨c, rfl⟩

/-- No proper suffix of the name can begin a successful date–amount tail:
the lazy name of the row regex never ends early.  `s` is the still
unconsumed part of the name; its last character is the name's last
character, which is not whitespace, while a successful tail would force it
into one of the two all-whitespace segments. -/
theorem no_early_mdae {s date amount : List Char} (hs : s ≠ [])
    (hlast : ∀ c, s.getLast? = some c → isWsJS c = false)
    (hdate : DateShape date) (hamt : AmountShape amount) :
    matchDateAmountEnd (s ++ ' ' :: (date ++ ' ' :: amount)) = none := by
  rcases hm : matchDateAmountEnd (s ++ ' ' :: (date ++ ' ' :: amount)) with _ | ⟨d, a⟩
  · rfl
  exfalso
  obtain ⟨w1, w2, heq, hw1, hd, hw2, ha⟩ := matchDateAmountEnd_sound hm
  have hX : s ++ ' ' :: (date ++ ' ' :: amount) =
      (s ++ [' '] ++ date ++ [' ']) ++ amount := by simp
  rw [hX] at heq
  have hdne : date ≠ [] := by
    intro he
    have := dateShape_len hdate
    rw [he] at this
    simp at this
  have step1 : s ++ [' '] ++ date ++ [' '] = w1 ++ d ++ w2 := by
    rcases List.append_eq_append_iff.mp heq with ⟨M, hWM, hamtM⟩ | ⟨M, hXM, haM⟩
    · by_cases hM : M = []
      · subst hM
        rw [List.append_nil] at hWM
        exact hWM.symm
      · exfalso
        have hg1 : (w1 ++ d ++ w2).getLast? = w2.getLast? :=
          List.getLast?_append_of_ne_nil _ hw2.1
        obtain ⟨c, hc⟩ := getLast_exists hw2.1
        have hcw : isWsJS c = true := hw2.2 c (List.mem_of_mem_getLast? hc)
        have hcM : c ∈ M := by
          apply List.mem_of_mem_getLast?
          have hg2 : ((s ++ [' '] ++ date ++ [' ']) ++ M).getLast? = M.getLast? :=
            List.getLast?_append_of_ne_nil _ hM
          rw [← hg2, ← hWM, hg1]
          exact hc
        have hca : c ∈ amount := by
          rw [hamtM]
          exact List.mem_append_left _ hcM
        rw [amountShape_nonWs hamt c hca] at hcw
        exact Bool.false_ne_true hcw
    · by_cases hM : M = []
      · subst hM
        rw [List.append_nil] at hXM
        exact hXM
      · exfalso
        have hg1 : (s ++ [' '] ++ date ++ [' ']).getLast? = some ' ' := by
          rw [List.getLast?_append_of_ne_nil _
            (by simp : ([' '] : List Char) ≠ [])]
          rfl
        have hspM : ' ' ∈ M := by
          apply List.mem_of_mem_getLast?
          have hg2 : ((w1 ++ d ++ w2) ++ M).getLast? = M.getLast? :=
            List.getLast?_append_of_ne_nil _ hM
          rw [← hg2, ← hXM]
          exact hg1
        have hspa : ' ' ∈ a := by
          rw [haM]
          exact List.mem_append_left _ hspM
        have hbad := amountShape_nonWs ha ' ' hspa
        exact absurd hbad (by decide)
  have step2 : w1 ++ d = (s ++ [' ']) ++ date := by
    rcases List.append_eq_append_iff.mp step1 with ⟨M, hWM, hspM⟩ | ⟨M, hXM, hw2M⟩
    · have hM : M = [] := by
        have hlen := congrArg List.length hspM
        simp only [List.length_cons, List.length_append, List.length_nil] at hlen
        have hw2len : 1 ≤ w2.length := by
          rcases w2 with _ | _
          · exact absurd rfl hw2.1
          · simp
        have : M.length = 0 := by omega
        exact List.eq_nil_of_length_eq_zero this
      subst hM
      rw [List.append_nil] at hWM
      exact hWM
    · by_cases hM : M = []
      · subst hM
        rw [List.append_nil] at hXM
        exact hXM.symm
      · exfalso
        obtain ⟨x, hx, hxd⟩ := dateShape_getLast hdate
        have hg1 : ((s ++ [' ']) ++ date).getLast? = some x := by
          rw [List.getLast?_append_of_ne_nil _ hdne]
          exact hx
        have hxM : x ∈ M := by
          apply List.mem_of_mem_getLast?
          have hg2 : ((w1 ++ d) ++ M).getLast? = M.getLast? :=
            List.getLast?_append_of_ne_nil _ hM
          rw [← hg2, ← hXM]
          exact hg1
        have hxw2 : x ∈ w2 := by
          rw [hw2M]
          exact List.mem_append_left _ hxM
        have := hw2.2 x hxw2
        rw [digit_not_ws hxd] at this
        exact Bool.false_ne_true this
  have step3 : w1 = s ++ [' '] := by
    rcases List.append_eq_append_iff.mp step2 with ⟨M, hWM, hdM⟩ | ⟨M, hXM, hdM⟩
    · have hM : M = [] := by
        have hlen := congrArg List.length hdM
        rw [dateShape_len hd, List.length_append, dateShape_len hdate] at hlen
        exact List.eq_nil_of_length_eq_zero (by omega)
      subst hM
      rw [List.append_nil] at hWM
      exact hWM.symm
    · have hM : M = [] := by
        have hlen := congrArg List.length hdM
        rw [dateShape_len hdate, List.length_append, dateShape_len hd] at hlen
        exact List.eq_nil_of_length_eq_zero (by omega)
      subst hM
      rw [List.append_nil] at hXM
      exact hXM
  obtain ⟨c, hc⟩ := getLast_exists hs
  have hcw1 : c ∈ w1 := by
    rw [step3]
    exact List.mem_append_left _ (List.mem_of_mem_getLast? hc)
  have := hw1.2 c hcw1
  rw [hlast c hc] at this
  exact Bool.false_ne_true this

theorem nameSearch_complete {date amount : List Char}
    (hdate : DateShape date) (hamt : AmountShape amount) :
    ∀ (rest accRev : List Char), (∀ c ∈ rest, isDotJS c = true) →
    (∀ c, rest.getLast? = some c → isWsJS c = false) →
    nameSearch accRev (rest ++ ' ' :: (date ++ ' ' :: amount)) =
      some (accRev.reverse ++ rest, date, amount) := by
  intro rest
  induction rest with
  | nil =>
    intro accRev _ _
    rw [List.nil_append]
    rw [show nameSearch accRev (' ' :: (date ++ ' ' :: amount)) =
        (match matchDateAmountEnd (' ' :: (date ++ ' ' :: amount)) with
         | some (d, a) => some (accRev.reverse, d, a)
         | none => if isDotJS ' ' then
             nameSearch (' ' :: accRev) (date ++ ' ' :: amount) else none) from
      rfl]
    rw [matchDateAmountEnd_complete hdate hamt]
    simp
  | cons c cs ih =>
    intro accRev hdot hlst
    have hnone : matchDateAmountEnd ((c :: cs) ++ ' ' :: (date ++ ' ' :: amount)) =
        none :=
      no_early_mdae (by simp) hlst hdate hamt
    rw [List.cons_append]
    rw [show nameSearch accRev (c :: (cs ++ ' ' :: (date ++ ' ' :: amount))) =
        (match matchDateAmountEnd (c :: (cs ++ ' ' :: (date ++ ' ' :: amount))) with
         | some (d, a) => some (accRev.reverse, d, a)
         | none => if isDotJS c then
             nameSearch (c :: accRev) (cs ++ ' ' :: (date ++ ' ' :: amount))
           else none) from rfl]
    rw [show matchDateAmountEnd (c :: (cs ++ ' ' :: (date ++ ' ' :: amount))) = none
      from hnone]
    dsimp only
    rw [if_pos (hdot c (by simp))]
    rw [ih (c :: accRev) (fun x hx => hdot x (by simp [hx])) ?_]
    · simp
    · intro x hx
      apply hlst
      rcases cs with _ | ⟨y, ys⟩
      · simp at hx
      · rw [List.getLast?_cons_cons]
        exact hx

theorem startName_complete {nm date amount : List Char}
    (hnm : nm ≠ []) (hdot : ∀ c ∈ nm, isDotJS c = true)
    (hlst : ∀ c, nm.getLast? = some c → isWsJS c = false)
    (hdate : DateShape date) (hamt : AmountShape amount) :
    startName (nm ++ ' ' :: (date ++ ' ' :: amount)) =
      some (nm, date, amount) := by
  rcases nm with _ | ⟨c0, cs⟩
  · exact absurd rfl hnm
  rw [List.cons_append]
  unfold startName
  dsimp only
  rw [if_pos (hdot c0 (by simp))]
  rw [nameSearch_complete hdate hamt cs [c0]
    (fun x hx => hdot x (by simp [hx])) ?_]
  · simp
  · intro x hx
    apply hlst
    rcases cs with _ | ⟨y, ys⟩
    · simp at hx
    · rw [List.getLast?_cons_cons]
      exact hx

theorem map_eq_self_of {f : Char → Char} :
    ∀ (l : List Char), (∀ c ∈ l, f c = c) → l.map f = l := by
  intro l h
  induction l with
  | nil => rfl
  | cons a as ih =>
    rw [List.map_cons, h a (by simp), ih (fun c hc => h c (by simp [hc]))]

theorem replaceNbsp_eq_self {l : List Char} (h : ∀ c ∈ l, c ≠ '\u00A0') :
    replaceNbsp l = l :=
  map_eq_self_of l (fun c hc => if_neg (h c hc))

theorem noDoubleSp_tail {c : Char} {cs : List Char}
    (h : noDoubleSp (c :: cs) = true) : noDoubleSp cs = true := by
  rcases cs with _ | ⟨y, t⟩
  · rfl
  · simp only [noDoubleSp, Bool.and_eq_true] at h
    exact h.2

theorem noDoubleSp_head {c y : Char} {t : List Char}
    (h : noDoubleSp (c :: y :: t) = true) : ¬(c = ' ' ∧ y = ' ') := by
  simp only [noDoubleSp, Bool.and_eq_true, Bool.not_eq_true',
    Bool.and_eq_false_iff, decide_eq_false_iff_not] at h
  rcases h.1 with h1 | h1
  · exact fun hc => h1 hc.1
  · exact fun hc => h1 hc.2

theorem noDoubleSp_nosp : ∀ {l : List Char}, (∀ c ∈ l, c ≠ ' ') →
    noDoubleSp l = true := by
  intro l
  induction l with
  | nil => intro _; rfl
  | cons a as ih =>
    intro h
    rcases as with _ | ⟨y, t⟩
    · rfl
    · simp only [noDoubleSp, Bool.and_eq_true]
      refine ⟨?_, ih (fun c hc => h c (by simp [hc]))⟩
      simp [h a (by simp)]

theorem noDoubleSp_sep {b : List Char} (hb : noDoubleSp b = true)
    (hbh : ∀ c, b.head? = some c → c ≠ ' ') :
    ∀ a : List Char, noDoubleSp a = true →
    (∀ c, a.getLast? = some c → c ≠ ' ') →
    noDoubleSp (a ++ ' ' :: b) = true := by
  intro a
  induction a with
  | nil =>
    intro _ _
    rw [List.nil_append]
    rcases b with _ | ⟨y, t⟩
    · rfl
    · simp only [noDoubleSp, Bool.and_eq_true]
      refine ⟨?_, hb⟩
      simp [hbh y rfl]
  | cons x xs ih =>
    intro ha halast
    rcases xs with _ | ⟨y, ys⟩
    · rw [List.cons_append, List.nil_append]
      simp only [noDoubleSp, Bool.and_eq_true]
      refine ⟨?_, ?_⟩
      · simp [halast x rfl]
      · have h2 := ih rfl (fun c hc => by simp at hc)
        simpa using h2
    · rw [List.cons_append, List.cons_append]
      simp only [noDoubleSp, Bool.and_eq_true]
      constructor
      · have h1 := noDoubleSp_head ha
        simp only [Bool.not_eq_true', Bool.and_eq_false_iff,
          decide_eq_false_iff_not]
        by_cases hx : x = ' '
        · exact Or.inr (fun hy => h1 ⟨hx, hy⟩)
        · exact Or.inl hx
      · have h2 := ih (noDoubleSp_tail ha)
          (fun c hc => halast c (by rw [List.getLast?_cons_cons]; exact hc))
        simpa using h2

theorem collapseGo_fix : ∀ (L : List Char), (∀ c ∈ L, c ≠ '\t') →
    noDoubleSp L = true →
    collapseGo false L = L ∧
      ((∀ x, L.head? = some x → isSpTab x = false) → collapseGo true L = L) := by
  intro L
  induction L with
  | nil => intro _ _; exact ⟨rfl, fun _ => rfl⟩
  | cons c cs ih =>
    intro htab hnd
    obtain ⟨ihf, iht⟩ := ih (fun x hx => htab x (by simp [hx])) (noDoubleSp_tail hnd)
    have hheadcs : ∀ x, cs.head? = some x → c = ' ' → isSpTab x = false := by
      intro y hy hc
      rcases cs with _ | ⟨y0, t⟩
      · simp at hy
      · rw [List.head?_cons] at hy
        injection hy with hy
        subst hy
        subst hc
        have h1 := noDoubleSp_head hnd
        have hy0 : y0 ≠ ' ' := fun hys => h1 ⟨rfl, hys⟩
        have hyt : y0 ≠ '\t' := htab y0 (by simp)
        simp [isSpTab, hy0, hyt]
    constructor
    · by_cases hsp : isSpTab c = true
      · have hc : c = ' ' := by
          simp only [isSpTab, Bool.or_eq_true, decide_eq_true_eq] at hsp
          rcases hsp with h | h
          · exact h
          · exact absurd h (htab c (by simp))
        subst hc
        simp only [collapseGo]
        rw [if_pos hsp]
        rw [iht (fun x hx => hheadcs x hx rfl)]
        rfl
      · simp only [collapseGo]
        rw [if_neg hsp, ihf]
    · intro hhd
      have hcsp : isSpTab c = false := hhd c rfl
      simp only [collapseGo]
      rw [if_neg (by simp [hcsp]), ihf]

theorem collapseSpTab_eq_self {l : List Char} (htab : ∀ c ∈ l, c ≠ '\t')
    (hnd : noDoubleSp l = true) : collapseSpTab l = l :=
  (collapseGo_fix l htab hnd).1

theorem trimJS_eq_self_of_ends {l : List Char}
    (hh : ∀ c, l.head? = some c → isWsJS c = false)
    (hl : ∀ c, l.getLast? = some c → isWsJS c = false) : trimJS l = l := by
  unfold trimJS
  have h1 : l.dropWhile isWsJS = l := by
    rcases l with _ | ⟨c, cs⟩
    · rfl
    · rw [List.dropWhile_cons, if_neg]
      simp [hh c rfl]
  rw [h1]
  have h2 : l.reverse.dropWhile isWsJS = l.reverse := by
    rcases hr : l.reverse with _ | ⟨c, cs⟩
    · rfl
    · rw [List.dropWhile_cons, if_neg]
      have hcl : l.getLast? = some c := by
        rw [← List.head?_reverse, hr, List.head?_cons]
      simp [hl c hcl]
  rw [h2, List.reverse_reverse]

/-- A line whose characters are tab- and NBSP-free, with no double spaces
and non-whitespace end characters, is a fixed point of `normalize`. -/
theorem normalize_eq_self {l : List Char}
    (hplain : ∀ c ∈ l, c ≠ '\t' ∧ c ≠ '\u00A0')
    (hnd : noDoubleSp l = true)
    (hh : ∀ c, l.head? = some c → isWsJS c = false)
    (hl : ∀ c, l.getLast? = some c → isWsJS c = false) :
    normalize l = l := by
  unfold normalize
  rw [replaceNbsp_eq_self (fun c hc => (hplain c hc).2),
    collapseSpTab_eq_self (fun c hc => (hplain c hc).1) hnd,
    trimJS_eq_self_of_ends hh hl]

theorem upper_not_ws {c : Char} (h : isUpperAZ c = true) : isWsJS c = false := by
  by_contra hws
  have hws2 : isWsJS c = true := by
    cases hb : isWsJS c
    · exact absurd hb hws
    · rfl
  simp only [isUpperAZ, Bool.and_eq_true, decide_eq_true_eq] at h
  simp only [isWsJS, Bool.or_eq_true, Bool.and_eq_true, decide_eq_true_eq] at hws2
  obtain ⟨h0, h9⟩ := h
  rcases hws2 with
    (((((((((((((h1|h1)|h1)|h1)|h1)|h1)|h1)|h1)|⟨h1,h2⟩)|h1)|h1)|h1)|h1)|h1)|h1 <;>
    first
      | (subst h1
         first
           | exact absurd h0 (by decide)
           | exact absurd h9 (by decide))
      | exact absurd (le_trans h1 h9) (by decide)

theorem digit_not_upper {c : Char} (h : isDigitC c = true) :
    isUpperAZ c = false := by
  by_contra hup
  have hup2 : isUpperAZ c = true := by
    cases hb : isUpperAZ c
    · exact absurd hb hup
    · rfl
  simp only [isDigitC, Bool.and_eq_true, decide_eq_true_eq] at h
  simp only [isUpperAZ, Bool.and_eq_true, decide_eq_true_eq] at hup2
  exact absurd (le_trans hup2.1 h.2) (by decide)

theorem nonws_plain {c : Char} (h : isWsJS c = false) :
    c ≠ '\t' ∧ c ≠ '\u00A0' ∧ c ≠ ' ' :=
  ⟨fun he => by subst he; exact absurd h (by decide),
   fun he => by subst he; exact absurd h (by decide),
   fun he => by subst he; exact absurd h (by decide)⟩

theorem getLast?_cons_of_ne_nil {c : Char} {y : List Char} (hy : y ≠ []) :
    (c :: y).getLast? = y.getLast? := by
  rw [show c :: y = [c] ++ y from rfl]
  exact List.getLast?_append_of_ne_nil [c] hy

theorem amountShape_getLast {s : List Char} (h : AmountShape s) :
    ∃ x, s.getLast? = some x ∧ isDigitC x = true := by
  obtain ⟨dol, pre, d1, d2, hdol, hpre, hprec, hd1, hd2, rfl⟩ := h
  refine ⟨d2, ?_, hd2⟩
  rw [List.getLast?_append_of_ne_nil _ (by simp)]
  rfl

/-- The full pipeline of `parseRowCore` on a single-space-joined line whose
gov field is present. -/
theorem parseRowCore_complete_gov
    (sn certL nm dt am sin : List Char) (ga gb : Char)
    (hsn3 : 3 ≤ sn.length) (hsnd : ∀ c ∈ sn, isDigitC c = true)
    (hsin : SinShape sin)
    (hga : isUpperAZ ga = true) (hgb : isUpperAZ gb = true)
    (hc4 : 4 ≤ certL.length) (hcd : ∀ c ∈ certL, isDigitC c = true)
    (hnm : nm ≠ []) (hdot : ∀ c ∈ nm, isDotJS c = true)
    (hnmh : ∀ c, nm.head? = some c → isWsJS c = false)
    (hnml : ∀ c, nm.getLast? = some c → isWsJS c = false)
    (hdt : DateShape dt) (ham : AmountShape am) :
    parseRowCore (sn ++ ' ' :: (sin ++ ' ' :: (ga :: gb :: ' ' ::
        (certL ++ ' ' :: (nm ++ ' ' :: (dt ++ ' ' :: am)))))) =
      some { studentNo := sn, sin := sin, gov := some [ga, gb], cert := certL,
             name := nm, eosDate := dt, amount := am } := by
  obtain ⟨a1, a2, a3, a4, a5, a6, a7, a8, a9, hdig9, rfl⟩ := hsin
  simp only [List.all_eq_true, List.mem_cons, List.not_mem_nil, or_false,
    forall_eq_or_imp, forall_eq] at hdig9
  obtain ⟨h1, h2, h3, h4, h5, h6, h7, h8, h9⟩ := hdig9
  rcases certL with _ | ⟨c1, cr⟩
  · simp at hc4
  rcases nm with _ | ⟨n0, nr⟩
  · exact absurd rfl hnm
  have hc1 : isDigitC c1 = true := hcd c1 (by simp)
  have hn0 : isWsJS n0 = false := hnmh n0 rfl
  have hsp : isWsJS ' ' = true := by decide
  set T3 : List Char := dt ++ ' ' :: am with hT3
  set T2 : List Char := (n0 :: nr) ++ ' ' :: T3 with hT2
  set TC : List Char := (c1 :: cr) ++ ' ' :: T2 with hTC
  set TG : List Char := ga :: gb :: ' ' :: TC with hTG
  set TS : List Char := [a1, a2, a3, '-', a4, a5, a6, '-', a7, a8, a9] ++
    ' ' :: TG with hTS
  have hTShead : TS = a1 :: a2 :: a3 :: '-' :: a4 :: a5 :: a6 :: '-' ::
      a7 :: a8 :: a9 :: ' ' :: TG := by
    rw [hTS]
    rfl
  unfold parseRowCore
  dsimp only
  have hA := takeWhile_append_sat TS hsnd
    (show isDigitC ' ' = false from by decide)
  rw [hA.1, hA.2, if_neg (by omega)]
  have hB1 : (' ' :: TS).takeWhile isWsJS = [' '] := by
    rw [hTShead]
    simp [List.takeWhile_cons, hsp, digit_not_ws h1]
  have hB2 : (' ' :: TS).dropWhile isWsJS = TS := by
    rw [hTShead]
    simp [List.dropWhile_cons, hsp, digit_not_ws h1]
  rw [hB1, hB2, if_neg (by simp)]
  have hC : matchSin TS =
      some ([a1, a2, a3, '-', a4, a5, a6, '-', a7, a8, a9], ' ' :: TG) := by
    rw [hTShead]
    unfold matchSin
    dsimp only
    rw [if_pos (by simp [h1, h2, h3, h4, h5, h6, h7, h8, h9])]
  rw [hC]
  dsimp only
  have hD1 : (' ' :: TG).takeWhile isWsJS = [' '] := by
    rw [hTG]
    simp [List.takeWhile_cons, hsp, upper_not_ws hga]
  have hD2 : (' ' :: TG).dropWhile isWsJS = TG := by
    rw [hTG]
    simp [List.dropWhile_cons, hsp, upper_not_ws hga]
  rw [hD1, hD2, if_neg (by simp)]
  have hE : matchGov TG = (some [ga, gb], ' ' :: TC) := by
    rw [hTG]
    unfold matchGov
    dsimp only
    rw [if_pos (by simp [hga, hgb])]
  rw [hE]
  dsimp only
  have hF : (' ' :: TC).dropWhile isWsJS = TC := by
    rw [hTC]
    simp [List.dropWhile_cons, List.cons_append, hsp, digit_not_ws hc1]
  rw [hF, hTC]
  have hG := takeWhile_append_sat T2 hcd
    (show isDigitC ' ' = false from by decide)
  rw [hG.1, hG.2, if_neg (by omega)]
  have hH1 : (' ' :: T2).takeWhile isWsJS = [' '] := by
    rw [hT2]
    simp [List.takeWhile_cons, List.cons_append, hsp, hn0]
  have hH2 : (' ' :: T2).dropWhile isWsJS = T2 := by
    rw [hT2]
    simp [List.dropWhile_cons, List.cons_append, hsp, hn0]
  rw [hH1, hH2, if_neg (by simp)]
  rw [show ([' '] : List Char).reverse = [' '] from rfl]
  rw [show tailLoop [' '] T2 = startName T2 from rfl]
  have hI : startName T2 = some (n0 :: nr, dt, am) := by
    rw [hT2, hT3]
    exact startName_complete hnm hdot hnml hdt ham
  rw [hI]

/-- The full pipeline of `parseRowCore` on a single-space-joined line whose
gov field is absent. -/
theorem parseRowCore_complete_nogov
    (sn certL nm dt am sin : List Char)
    (hsn3 : 3 ≤ sn.length) (hsnd : ∀ c ∈ sn, isDigitC c = true)
    (hsin : SinShape sin)
    (hc4 : 4 ≤ certL.length) (hcd : ∀ c ∈ certL, isDigitC c = true)
    (hnm : nm ≠ []) (hdot : ∀ c ∈ nm, isDotJS c = true)
    (hnmh : ∀ c, nm.head? = some c → isWsJS c = false)
    (hnml : ∀ c, nm.getLast? = some c → isWsJS c = false)
    (hdt : DateShape dt) (ham : AmountShape am) :
    parseRowCore (sn ++ ' ' :: (sin ++ ' ' ::
        (certL ++ ' ' :: (nm ++ ' ' :: (dt ++ ' ' :: am))))) =
      some { studentNo := sn, sin := sin, gov := none, cert := certL,
             name := nm, eosDate := dt, amount := am } := by
  obtain ⟨a1, a2, a3, a4, a5, a6, a7, a8, a9, hdig9, rfl⟩ := hsin
  simp only [List.all_eq_true, List.mem_cons, List.not_mem_nil, or_false,
    forall_eq_or_imp, forall_eq] at hdig9
  obtain ⟨h1, h2, h3, h4, h5, h6, h7, h8, h9⟩ := hdig9
  rcases certL with _ | ⟨c1, cr⟩
  · simp at hc4
  rcases cr with _ | ⟨c2, cr2⟩
  · simp at hc4
  rcases nm with _ | ⟨n0, nr⟩
  · exact absurd rfl hnm
  have hc1 : isDigitC c1 = true := hcd c1 (by simp)
  have hc2 : isDigitC c2 = true := hcd c2 (by simp)
  have hn0 : isWsJS n0 = false := hnmh n0 rfl
  have hsp : isWsJS ' ' = true := by decide
  set T3 : List Char := dt ++ ' ' :: am with hT3
  set T2 : List Char := (n0 :: nr) ++ ' ' :: T3 with hT2
  set TC : List Char := (c1 :: c2 :: cr2) ++ ' ' :: T2 with hTC
  set TS : List Char := [a1, a2, a3, '-', a4, a5, a6, '-', a7, a8, a9] ++
    ' ' :: TC with hTS
  have hTShead : TS = a1 :: a2 :: a3 :: '-' :: a4 :: a5 :: a6 :: '-' ::
      a7 :: a8 :: a9 :: ' ' :: TC := by
    rw [hTS]
    rfl
  have hTChead : TC = c1 :: c2 :: (cr2 ++ ' ' :: T2) := by
    rw [hTC]
    rfl
  unfold parseRowCore
  dsimp only
  have hA := takeWhile_append_sat TS hsnd
    (show isDigitC ' ' = false from by decide)
  rw [hA.1, hA.2, if_neg (by omega)]
  have hB1 : (' ' :: TS).takeWhile isWsJS = [' '] := by
    rw [hTShead]
    simp [List.takeWhile_cons, hsp, digit_not_ws h1]
  have hB2 : (' ' :: TS).dropWhile isWsJS = TS := by
    rw [hTShead]
    simp [List.dropWhile_cons, hsp, digit_not_ws h1]
  rw [hB1, hB2, if_neg (by simp)]
  have hC : matchSin TS =
      some ([a1, a2, a3, '-', a4, a5, a6, '-', a7, a8, a9], ' ' :: TC) := by
    rw [hTShead]
    unfold matchSin
    dsimp only
    rw [if_pos (by simp [h1, h2, h3, h4, h5, h6, h7, h8, h9])]
  rw [hC]
  dsimp only
  have hD1 : (' ' :: TC).takeWhile isWsJS = [' '] := by
    rw [hTChead]
    simp [List.takeWhile_cons, hsp, digit_not_ws hc1]
  have hD2 : (' ' :: TC).dropWhile isWsJS = TC := by
    conv_lhs => rw [hTChead]
    rw [hTChead]
    simp [List.dropWhile_cons, hsp, digit_not_ws hc1]
  rw [hD1, hD2, if_neg (by simp)]
  have hE : matchGov TC = (none, TC) := by
    conv_lhs => rw [hTChead]
    unfold matchGov
    dsimp only
    rw [if_neg (by simp [digit_not_upper hc1]), ← hTChead]
  rw [hE]
  dsimp only
  have hF : TC.dropWhile isWsJS = TC := by
    conv_lhs => rw [hTChead]
    rw [hTChead]
    simp [List.dropWhile_cons, digit_not_ws hc1]
  rw [hF, hTC]
  have hG := takeWhile_append_sat T2 hcd
    (show isDigitC ' ' = false from by decide)
  rw [hG.1, hG.2, if_neg (by omega)]
  have hH1 : (' ' :: T2).takeWhile isWsJS = [' '] := by
    rw [hT2]
    simp [List.takeWhile_cons, List.cons_append, hsp, hn0]
  have hH2 : (' ' :: T2).dropWhile isWsJS = T2 := by
    rw [hT2]
    simp [List.dropWhile_cons, List.cons_append, hsp, hn0]
  rw [hH1, hH2, if_neg (by simp)]
  rw [show ([' '] : List Char).reverse = [' '] from rfl]
  rw [show tailLoop [' '] T2 = startName T2 from rfl]
  have hI : startName T2 = some (n0 :: nr, dt, am) := by
    rw [hT2, hT3]
    exact startName_complete hnm hdot hnml hdt ham
  rw [hI]

theorem head?_append_left {x y : List Char} {c : Char}
    (hx : (x ++ y).head? = some c) (hne : x ≠ []) : x.head? = some c := by
  rcases x with _ | ⟨x0, xr⟩
  · exact absurd rfl hne
  · simpa using hx

theorem sinShape_getLast {s : List Char} (h : SinShape s) :
    ∃ x, s.getLast? = some x ∧ isDigitC x = true := by
  obtain ⟨a, b, c, d, e, f, g, h2, i, hdig, rfl⟩ := h
  simp only [List.all_eq_true, List.mem_cons, List.not_mem_nil, or_false,
    forall_eq_or_imp, forall_eq] at hdig
  exact ⟨i, rfl, hdig.2.2.2.2.2.2.2.2⟩

/-- C4 (amended): the Row Parser round-trips every valid field set whose
name field is itself normalization-stable and dot-matchable: nonempty, free
of line terminators, tabs and non-breaking spaces, with no double spaces
and non-whitespace first and last characters. -/
theorem C4_round_trip (f : ParsedRow) (hf : ValidFields f) (hn : NameOk f.name) :
    parseRow (joinFields f) = some f := by
  rcases f with ⟨sn, sin, govOpt, certL, nm, dt, am⟩
  obtain ⟨hsn3, hsnd, hsin, hgovv, hc4, hcd, hdt, hamg⟩ := hf
  obtain ⟨hnm, hnchars, hnnd, hnmh, hnml⟩ := hn
  have ham : AmountShape am := amountGrouped_shape hamg
  have hamne : am ≠ [] := amountShape_ne_nil ham
  have hdtne : dt ≠ [] := by
    intro he
    have := dateShape_len hdt
    rw [he] at this
    simp at this
  have hsnne : sn ≠ [] := by
    intro he
    rw [he] at hsn3
    simp at hsn3
  have hcertne : certL ≠ [] := by
    intro he
    rw [he] at hc4
    simp at hc4
  have hsnws : ∀ c ∈ sn, isWsJS c = false := fun c hc => digit_not_ws (hsnd c hc)
  have hsinws : ∀ c ∈ sin, isWsJS c = false := by
    intro c hc
    rcases sinShape_chars hsin c hc with h | rfl
    · exact digit_not_ws h
    · decide
  have hcertws : ∀ c ∈ certL, isWsJS c = false :=
    fun c hc => digit_not_ws (hcd c hc)
  have hdtws : ∀ c ∈ dt, isWsJS c = false := dateShape_nonWs hdt
  have hamws : ∀ c ∈ am, isWsJS c = false := amountShape_nonWs ham
  have pl : ∀ {c : Char}, isWsJS c = false → c ≠ '\t' ∧ c ≠ '\u00A0' :=
    fun h => ⟨(nonws_plain h).1, (nonws_plain h).2.1⟩
  have hndAM : noDoubleSp am = true :=
    noDoubleSp_nosp (fun c hc => (nonws_plain (hamws c hc)).2.2)
  have hndA5 : noDoubleSp (dt ++ ' ' :: am) = true :=
    noDoubleSp_sep hndAM
      (fun c hc => (nonws_plain (hamws c (List.mem_of_mem_head? hc))).2.2)
      dt (noDoubleSp_nosp (fun c hc => (nonws_plain (hdtws c hc)).2.2))
      (fun c hc => (nonws_plain (hdtws c (List.mem_of_mem_getLast? hc))).2.2)
  have hndA4 : noDoubleSp (nm ++ ' ' :: (dt ++ ' ' :: am)) = true :=
    noDoubleSp_sep hndA5
      (fun c hc => (nonws_plain (hdtws c
        (List.mem_of_mem_head? (head?_append_left hc hdtne)))).2.2)
      nm hnnd
      (fun c hc => (nonws_plain (hnml c hc)).2.2)
  have hndA3 : noDoubleSp (certL ++ ' ' ::
      (nm ++ ' ' :: (dt ++ ' ' :: am))) = true :=
    noDoubleSp_sep hndA4
      (fun c hc => (nonws_plain (hnmh c (head?_append_left hc hnm))).2.2)
      certL (noDoubleSp_nosp (fun c hc => (nonws_plain (hcertws c hc)).2.2))
      (fun c hc => (nonws_plain (hcertws c (List.mem_of_mem_getLast? hc))).2.2)
  have hheadA3 : ∀ c, (certL ++ ' ' ::
      (nm ++ ' ' :: (dt ++ ' ' :: am))).head? = some c → c ≠ ' ' :=
    fun c hc => (nonws_plain (hcertws c
      (List.mem_of_mem_head? (head?_append_left hc hcertne)))).2.2
  rcases govOpt with _ | g
  · -- no gov field
    have hJ : joinFields
        { studentNo := sn, sin := sin, gov := none, cert := certL,
          name := nm, eosDate := dt, amount := am } =
        sn ++ ' ' :: (sin ++ ' ' :: (certL ++ ' ' ::
          (nm ++ ' ' :: (dt ++ ' ' :: am)))) := by
      simp [joinFields]
    have hndA2 : noDoubleSp (sin ++ ' ' :: (certL ++ ' ' ::
        (nm ++ ' ' :: (dt ++ ' ' :: am)))) = true :=
      noDoubleSp_sep hndA3 hheadA3 sin
        (noDoubleSp_nosp (fun c hc => (nonws_plain (hsinws c hc)).2.2))
        (fun c hc => (nonws_plain (hsinws c (List.mem_of_mem_getLast? hc))).2.2)
    have hsinne : sin ≠ [] := by
      obtain ⟨x, hx, -⟩ := sinShape_getLast hsin
      intro he
      rw [he] at hx
      simp at hx
    have hndJ : noDoubleSp (sn ++ ' ' :: (sin ++ ' ' :: (certL ++ ' ' ::
        (nm ++ ' ' :: (dt ++ ' ' :: am))))) = true :=
      noDoubleSp_sep hndA2
        (fun c hc => (nonws_plain (hsinws c
          (List.mem_of_mem_head? (head?_append_left hc hsinne)))).2.2)
        sn (noDoubleSp_nosp (fun c hc => (nonws_plain (hsnws c hc)).2.2))
        (fun c hc => (nonws_plain (hsnws c (List.mem_of_mem_getLast? hc))).2.2)
    have hplainJ : ∀ c ∈ sn ++ ' ' :: (sin ++ ' ' :: (certL ++ ' ' ::
        (nm ++ ' ' :: (dt ++ ' ' :: am)))), c ≠ '\t' ∧ c ≠ '\u00A0' := by
      intro c hc
      simp only [List.mem_append, List.mem_cons] at hc
      rcases hc with hc | rfl | hc | rfl | hc | rfl | hc | rfl | hc | rfl | hc
      · exact pl (hsnws c hc)
      · exact ⟨by decide, by decide⟩
      · exact pl (hsinws c hc)
      · exact ⟨by decide, by decide⟩
      · exact pl (hcertws c hc)
      · exact ⟨by decide, by decide⟩
      · exact ⟨(hnchars c hc).2.1, (hnchars c hc).2.2⟩
      · exact ⟨by decide, by decide⟩
      · exact pl (hdtws c hc)
      · exact ⟨by decide, by decide⟩
      · exact pl (hamws c hc)
    have hhJ : ∀ c, (sn ++ ' ' :: (sin ++ ' ' :: (certL ++ ' ' ::
        (nm ++ ' ' :: (dt ++ ' ' :: am))))).head? = some c →
        isWsJS c = false :=
      fun c hc => hsnws c (List.mem_of_mem_head? (head?_append_left hc hsnne))
    have hlJ : ∀ c, (sn ++ ' ' :: (sin ++ ' ' :: (certL ++ ' ' ::
        (nm ++ ' ' :: (dt ++ ' ' :: am))))).getLast? = some c →
        isWsJS c = false := by
      intro c hc
      rw [List.getLast?_append_of_ne_nil _ (by simp),
        getLast?_cons_of_ne_nil (by simp),
        List.getLast?_append_of_ne_nil _ (by simp),
        getLast?_cons_of_ne_nil (by simp),
        List.getLast?_append_of_ne_nil _ (by simp),
        getLast?_cons_of_ne_nil (by simp),
        List.getLast?_append_of_ne_nil _ (by simp),
        getLast?_cons_of_ne_nil (by simp),
        List.getLast?_append_of_ne_nil _ (by simp),
        getLast?_cons_of_ne_nil hamne] at hc
      obtain ⟨x, hx, hxd⟩ := amountShape_getLast ham
      rw [hx] at hc
      injection hc with hc
      subst hc
      exact digit_not_ws hxd
    show parseRowCore (normalize (joinFields _)) = _
    rw [hJ, normalize_eq_self hplainJ hndJ hhJ hlJ]
    exact parseRowCore_complete_nogov sn certL nm dt am sin hsn3 hsnd hsin
      hc4 hcd hnm (fun c hc => (hnchars c hc).1) hnmh hnml hdt ham
  · -- gov field present
    obtain ⟨ga, gb, hga, hgb, rfl⟩ := hgovv g rfl
    have hJ : joinFields
        { studentNo := sn, sin := sin, gov := some [ga, gb], cert := certL,
          name := nm, eosDate := dt, amount := am } =
        sn ++ ' ' :: (sin ++ ' ' :: (ga :: gb :: ' ' :: (certL ++ ' ' ::
          (nm ++ ' ' :: (dt ++ ' ' :: am))))) := by
      simp [joinFields]
    have hndG : noDoubleSp ([ga, gb] ++ ' ' :: (certL ++ ' ' ::
        (nm ++ ' ' :: (dt ++ ' ' :: am)))) = true :=
      noDoubleSp_sep hndA3 hheadA3 [ga, gb]
        (noDoubleSp_nosp (by
          intro c hc
          simp only [List.mem_cons, List.not_mem_nil, or_false] at hc
          rcases hc with rfl | rfl
          · exact (nonws_plain (upper_not_ws hga)).2.2
          · exact (nonws_plain (upper_not_ws hgb)).2.2))
        (by
          intro c hc
          rw [show ([ga, gb] : List Char).getLast? = some gb from rfl] at hc
          injection hc with hc
          subst hc
          exact (nonws_plain (upper_not_ws hgb)).2.2)
    have hndA2 : noDoubleSp (sin ++ ' ' :: (ga :: gb :: ' ' :: (certL ++ ' ' ::
        (nm ++ ' ' :: (dt ++ ' ' :: am))))) = true :=
      noDoubleSp_sep (by exact hndG)
        (by
          intro c hc
          rw [show (ga :: gb :: ' ' :: (certL ++ ' ' ::
            (nm ++ ' ' :: (dt ++ ' ' :: am)))).head? = some ga from rfl] at hc
          injection hc with hc
          subst hc
          exact (nonws_plain (upper_not_ws hga)).2.2)
        sin
        (noDoubleSp_nosp (fun c hc => (nonws_plain (hsinws c hc)).2.2))
        (fun c hc => (nonws_plain (hsinws c (List.mem_of_mem_getLast? hc))).2.2)
    have hsinne : sin ≠ [] := by
      obtain ⟨x, hx, -⟩ := sinShape_getLast hsin
      intro he
      rw [he] at hx
      simp at hx
    have hndJ : noDoubleSp (sn ++ ' ' :: (sin ++ ' ' :: (ga :: gb :: ' ' ::
        (certL ++ ' ' :: (nm ++ ' ' :: (dt ++ ' ' :: am)))))) = true :=
      noDoubleSp_sep hndA2
        (fun c hc => (nonws_plain (hsinws c
          (List.mem_of_mem_head? (head?_append_left hc hsinne)))).2.2)
        sn (noDoubleSp_nosp (fun c hc => (nonws_plain (hsnws c hc)).2.2))
        (fun c hc => (nonws_plain (hsnws c (List.mem_of_mem_getLast? hc))).2.2)
    have hplainJ : ∀ c ∈ sn ++ ' ' :: (sin ++ ' ' :: (ga :: gb :: ' ' ::
        (certL ++ ' ' :: (nm ++ ' ' :: (dt ++ ' ' :: am))))),
        c ≠ '\t' ∧ c ≠ '\u00A0' := by
      intro c hc
      simp only [List.mem_append, List.mem_cons] at hc
      rcases hc with hc | rfl | hc | rfl | rfl | rfl | rfl | hc | rfl | hc |
        rfl | hc | rfl | hc
      · exact pl (hsnws c hc)
      · exact ⟨by decide, by decide⟩
      · exact pl (hsinws c hc)
      · exact ⟨by decide, by decide⟩
      · exact pl (upper_not_ws hga)
      · exact pl (upper_not_ws hgb)
      · exact ⟨by decide, by decide⟩
      · exact pl (hcertws c hc)
      · exact ⟨by decide, by decide⟩
      · exact ⟨(hnchars c hc).2.1, (hnchars c hc).2.2⟩
      · exact ⟨by decide, by decide⟩
      · exact pl (hdtws c hc)
      · exact ⟨by decide, by decide⟩
      · exact pl (hamws c hc)
    have hhJ : ∀ c, (sn ++ ' ' :: (sin ++ ' ' :: (ga :: gb :: ' ' ::
        (certL ++ ' ' :: (nm ++ ' ' :: (dt ++ ' ' :: am)))))).head? = some c →
        isWsJS c = false :=
      fun c hc => hsnws c (List.mem_of_mem_head? (head?_append_left hc hsnne))
    have hlJ : ∀ c, (sn ++ ' ' :: (sin ++ ' ' :: (ga :: gb :: ' ' ::
        (certL ++ ' ' :: (nm ++ ' ' :: (dt ++ ' ' :: am)))))).getLast? =
        some c → isWsJS c = false := by
      intro c hc
      rw [List.getLast?_append_of_ne_nil _ (by simp),
        getLast?_cons_of_ne_nil (by simp),
        List.getLast?_append_of_ne_nil _ (by simp),
        getLast?_cons_of_ne_nil (by simp),
        getLast?_cons_of_ne_nil (by simp),
        getLast?_cons_of_ne_nil (by simp),
        getLast?_cons_of_ne_nil (by simp),
        List.getLast?_append_of_ne_nil _ (by simp),
        getLast?_cons_of_ne_nil (by simp),
        List.getLast?_append_of_ne_nil _ (by simp),
        getLast?_cons_of_ne_nil (by simp),
        List.getLast?_append_of_ne_nil _ (by simp),
        getLast?_cons_of_ne_nil hamne] at hc
      obtain ⟨x, hx, hxd⟩ := amountShape_getLast ham
      rw [hx] at hc
      injection hc with hc
      subst hc
      exact digit_not_ws hxd
    show parseRowCore (normalize (joinFields _)) = _
    rw [hJ, normalize_eq_self hplainJ hndJ hhJ hlJ]
    exact parseRowCore_complete_gov sn certL nm dt am sin ga gb hsn3 hsnd hsin
      hga hgb hc4 hcd hnm (fun c hc => (hnchars c hc).1) hnmh hnml hdt ham

/-- C4 counterexample: the original round-trip claim fails for the valid
field set whose name is `"A  B"` — the Row Parser's normalizer collapses
the double space, so the line re-parses with name `"A B"`, not the
original field value. -/
theorem C4_round_trip_counterexample :
    ValidFields exRowDoubleSp ∧
    parseRow (joinFields exRowDoubleSp) ≠ some exRowDoubleSp := by
  constructor
  · refine ⟨by decide, by decide,
      ⟨'1', '2', '3', '4', '5', '6', '7', '8', '9', by decide, by decide⟩,
      ?_, by decide, by decide,
      ⟨'0', '8', '0', '9', '2', '3', by decide, by decide⟩,
      ⟨['$'], ['2'], [['2', '0', '5']], '0', '0', Or.inr rfl, by decide,
        by decide, by decide, by decide, by decide, by decide, by decide⟩⟩
    intro g hg
    injection hg with hg
    subst hg
    exact ⟨'O', 'N', by decide, by decide, by decide⟩
  · decide

theorem C4_round_trip_witness : parseRow (joinFields exRow) = some exRow := by
  apply C4_round_trip
  · refine ⟨by decide, by decide,
      ⟨'1', '2', '3', '4', '5', '6', '7', '8', '9', by decide, by decide⟩,
      ?_, by decide, by decide,
      ⟨'0', '8', '0', '9', '2', '3', by decide, by decide⟩,
      ⟨['$'], ['2'], [['2', '0', '5']], '0', '0', Or.inr rfl, by decide,
        by decide, by decide, by decide, by decide, by decide, by decide⟩⟩
    intro g hg
    injection hg with hg
    subst hg
    exact ⟨'O', 'N', by decide, by decide, by decide⟩
  · refine ⟨by decide, by decide, by decide, ?_, ?_⟩
    · intro c hc
      rw [show (exRow.name).head? = some 'D' from rfl] at hc
      injection hc with hc
      subst hc
      decide
    · intro c hc
      rw [show (exRow.name).getLast? = some 'N' from rfl] at hc
      injection hc with hc
      subst hc
      decide

end AscConv
